import Mathlib

/-!
Verification development for the plur / arrowed / oamap columnar data system.

The Python sources are shallowly embedded:
* `arrowed/schema.py` — schema nodes, resolution, projection (`Spec2Proof.Arrowed`);
* `oamap/proxy.py` — row proxies (`Spec2Proof.Oamap`);
* `plur/python/convert.py` — the flattening encoder (`Spec2Proof.Plur`).

Numpy arrays are modelled as `List Int`; a numpy masked array is a `MArr`, a
data list together with an optional validity mask (`mask[i] = true` means the
row is flagged invalid, as in `numpy.ma`).  Python exceptions are modelled with
`Except`; `Option` models `None`.
-/

namespace Spec2Proof

/-- A (possibly masked) one-dimensional integer array: the model of the numpy
arrays handled by `arrowed/schema.py`.  `mask = some m` models a
`numpy.ma.MaskedArray` whose mask is `m`; `mask = none` a plain `ndarray`. -/
structure MArr where
  data : List Int
  mask : Option (List Bool)
deriving DecidableEq

deriving instance DecidableEq for Except

namespace Arrowed

/-! ### `ListCount.resolved` (arrowed/schema.py lines 365-385) -/

/-- Running cumulative sums: the model of `countarray.cumsum()`.
`cumsum a [c1, c2, ...] = [a+c1, a+c1+c2, ...]`. -/
def cumsum (a : Int) : List Int → List Int
  | [] => []
  | c :: cs => (a + c) :: cumsum (a + c) cs

/-- The fresh offset buffer allocated by `ListCount.resolved`:
`offsetarray = numpy.empty(len(countarray) + 1)`, `countarray.cumsum(out=offsetarray[1:])`,
`offsetarray[0] = 0`. -/
def listCountOffsetarray (counts : List Int) : List Int :=
  0 :: cumsum 0 counts

/-- `ListCount.resolved` (non-lazy path): build the offset buffer, take
`startarray = offsetarray[:-1]` and `endarray = offsetarray[1:]` as views of it,
and propagate the count array's validity mask onto `startarray` only. -/
def listCountResolved (countarray : MArr) : MArr × MArr :=
  let offsetarray := listCountOffsetarray countarray.data
  let startarray := offsetarray.dropLast
  let endarray := offsetarray.drop 1
  (⟨startarray, countarray.mask⟩, ⟨endarray, none⟩)

/-! ### `UnionSparse.resolved` (arrowed/schema.py lines 882-900) -/

/-- Number of occurrences of tag `t` among the first `i` entries of `tags`:
the value `numpy.linspace(0, m-1, m)` assigns to the `i`-th row when that row
matches `t` (its 0-based running count within `t`'s subsequence). -/
def rankIn (tags : List Int) (t : Int) (i : Nat) : Int :=
  Int.ofNat ((tags.take i).countP (fun x => x == t))

/-- One pass of `offsetarray[matches] = numpy.linspace(0, nummatches-1, nummatches)`:
every position whose tag equals `t` receives its running count, every other
position keeps its previous contents.  `i` is the index of the first cell. -/
def assignLinspace (tags : List Int) (t : Int) : Nat → List Int → List Int
  | _, [] => []
  | i, v :: rest =>
      (if tags.getD i 0 == t then rankIn tags t i else v) :: assignLinspace tags t (i + 1) rest

/-- `UnionSparse.resolved`'s offset synthesis: starting from the uninitialised
`numpy.empty(len(tagarray))` buffer `init`, loop `for tag in range(K)` and
overwrite the matching positions with increasing integers. -/
def unionSparseOffsets (tags : List Int) (K : Nat) (init : List Int) : List Int :=
  (List.range K).foldl (fun off tag => assignLinspace tags (Int.ofNat tag) 0 off) init

/-! ### `_resolved` on a named source, `ListOffset.resolved`, `ListStartEnd.resolved` -/

/-- `ObjectArrayMapping._resolved` for a hashable key: look the key up in the
source, or fail with `ValueError("array cannot be found for key ...")`.
(The concrete-array and callable branches bypass the source and are not
exercised by named references.) -/
def resolvedLookup (key : String) (source : List (String × MArr)) : Except String MArr :=
  match source.lookup key with
  | some arr => .ok arr
  | none => .error "array cannot be found for key"

/-- `ListOffset.resolved` (non-lazy): bind the offset array, then take
`startarray = offsetarray[:-1]` and `endarray = offsetarray[1:]` as
overlapping views (mask slices along with data). -/
def listOffsetResolved (offsetarray : String) (source : List (String × MArr)) :
    Except String (MArr × MArr) := do
  let o ← resolvedLookup offsetarray source
  .ok (⟨o.data.dropLast, o.mask.map List.dropLast⟩, ⟨o.data.drop 1, o.mask.map (List.drop 1)⟩)

/-- `ListStartEnd.resolved` (non-lazy), exactly as written in
arrowed/schema.py lines 523-527: the binding assigned to `endarray` also
resolves `self.startarray`; the node's end reference is never consulted
(even though the accompanying error message says "endarray"). -/
def listStartEndResolved (startarray endarray : String) (source : List (String × MArr)) :
    Except String (MArr × MArr) := do
  let s ← resolvedLookup startarray source
  let e ← resolvedLookup startarray source
  .ok (s, e)

/-! ### `proxy` mask handling
(`Primitive.proxy`, `ListStartEnd.proxy`, `UnionSparseOffset.proxy`,
`Pointer.proxy` in arrowed/schema.py) -/

/-- The outcome of one `proxy(index)` call, at the boundary where the Python
method either returns `None`, a scalar, a `ListProxy`, or hands off to a
sub-proxy (`contents[tag].proxy(offset)` / `target.proxy(offset)`). -/
inductive ProxyStep where
  | null
  | primValue (v : Int)
  | listView (start stop : Int)
  | unionStep (tag offset : Int)
  | pointerStep (offset : Int)
deriving DecidableEq

/-- A resolved node with its bound arrays, as consulted by `proxy`. -/
inductive RNodeM where
  | primitive (array : MArr)
  | listStartEnd (startarray endarray : MArr)
  | unionSparseOffset (tagarray offsetarray : MArr)
  | pointer (indexarray : MArr)
deriving DecidableEq

/-- The array whose validity mask each `proxy` consults: `self.array`,
`self.startarray`, `self.tagarray` or `self.indexarray` respectively. -/
def maskedArray : RNodeM → MArr
  | .primitive a => a
  | .listStartEnd s _ => s
  | .unionSparseOffset t _ => t
  | .pointer ix => ix

/-- Numpy scalar access: `arr[i]`, raising `IndexError` when out of bounds. -/
def arrGet (l : List Int) (i : Nat) : Except String Int :=
  match l.get? i with
  | some v => .ok v
  | none => .error "index out of bounds"

/-- The body each `proxy` runs once the mask check has passed. -/
def proxyUnmasked : RNodeM → Nat → Except String ProxyStep
  | .primitive a, index => (arrGet a.data index).map .primValue
  | .listStartEnd s e, index => do
      let st ← arrGet s.data index
      let en ← arrGet e.data index
      .ok (.listView st en)
  | .unionSparseOffset t o, index => do
      let tg ← arrGet t.data index
      let off ← arrGet o.data index
      .ok (.unionStep tg off)
  | .pointer ix, index => (arrGet ix.data index).map .pointerStep

/-- `proxy(index)`: every one of the four classes first runs
`if getattr(arr, "mask", None) is not None and arr.mask[index]: return None`
on its mask-carrying array, then its own body. -/
def proxy (n : RNodeM) (index : Nat) : Except String ProxyStep :=
  match (maskedArray n).mask with
  | some m =>
      match m.get? index with
      | some true => .ok .null
      | some false => proxyUnmasked n index
      | none => .error "index out of bounds"
  | none => proxyUnmasked n index

/-! ### `resolved` over object graphs with pointers
(`Record.resolved`, `Pointer.resolved`, `ObjectArrayMapping._recursion_check`) -/

/-- A schema node in an arena: Python object identity is the arena index, so a
`Pointer` target may refer back to an enclosing node (the only sanctioned
cycle).  The variants needed for pointer resolution are modelled. -/
inductive NodeDesc where
  | primitive (array : String) (masked : Bool)
  | record (contents : List (String × Nat))
  | pointer (indexarray : String) (target : Nat) (masked : Bool)
deriving DecidableEq

/-- A resolved node, `resolved`'s non-lazy output. -/
inductive RNode where
  | primitive (array : MArr)
  | record (contents : List (String × RNode))
  | pointer (indexarray : MArr) (target : RNode)

/-- The ways `resolved` fails. -/
inductive RErr where
  | missingKey          -- ValueError from `_resolved`
  | duplicateContainer  -- TypeError from `_recursion_check`
  | memoKeyError        -- KeyError reading `_memo[id(self.target)]`
  | targetNotMapping    -- AssertionError "target must be an ObjectArrayMapping"
  | badNode             -- dangling arena index (no Python counterpart)
  | outOfFuel           -- fuel exhausted (no Python counterpart; fuel only bounds depth)
deriving DecidableEq

/-- The per-pass memo `_memo : dict(id -> resolved node or placeholder)`;
`none` is the `None` placeholder installed before descending into children. -/
abbrev Memo := List (Nat × Option RNode)

/-- `_memo[k] = v` (overwrite an existing entry, else append). -/
def memoSet (m : Memo) (k : Nat) (v : Option RNode) : Memo :=
  match m with
  | [] => [(k, v)]
  | (k2, v2) :: rest => if k2 = k then (k, v) :: rest else (k2, v2) :: memoSet rest k v

/-- `resolved(source, lazy=False, _memo)` on an arena node.
* `Primitive.resolved` neither reads nor writes `_memo`.
* `Record.resolved` runs `_recursion_check` (error if its own id is already
  memoised, then install the `None` placeholder), resolves its children in
  order threading `_memo`, and finally overwrites its memo entry.
* `Pointer.resolved` resolves the target only if `id(target)` is not yet
  memoised, resolves its index array, then reads `_memo[id(target)]`:
  a missing entry is a `KeyError`, a `None` placeholder makes the `Pointer`
  constructor's `isinstance` assertion fail, otherwise the pointer is built
  and memoised. -/
def resolvedNode (arena : List NodeDesc) (source : List (String × MArr)) :
    Nat → Nat → Memo → Except RErr (RNode × Memo)
  | 0, _, _ => .error .outOfFuel
  | fuel + 1, nid, memo =>
    match arena.get? nid with
    | none => .error .badNode
    | some (.primitive arr _) =>
        match resolvedLookup arr source with
        | .ok a => .ok (.primitive a, memo)
        | .error _ => .error .missingKey
    | some (.record fields) =>
        if (memo.lookup nid).isSome then .error .duplicateContainer
        else do
          let (rs, memo1) ← fields.foldlM
            (fun (acc : List (String × RNode) × Memo) fc => do
              let (r, m2) ← resolvedNode arena source fuel fc.2 acc.2
              pure (acc.1 ++ [(fc.1, r)], m2))
            ([], memoSet memo nid none)
          let r := RNode.record rs
          .ok (r, memoSet memo1 nid (some r))
    | some (.pointer idx target _) => do
        let memo1 ←
          if (memo.lookup target).isSome then pure memo
          else (resolvedNode arena source fuel target memo).map Prod.snd
        match resolvedLookup idx source with
        | .error _ => .error .missingKey
        | .ok a =>
            match memo1.lookup target with
            | none => .error .memoKeyError
            | some none => .error .targetNotMapping
            | some (some t) =>
                let r := RNode.pointer a t
                .ok (r, memoSet memo1 nid (some r))

/-! ### `hasany` and `projection` over template trees
(`members`/`hasany`/`projection` of every node class in arrowed/schema.py) -/

/-- An unresolved template node, labelled by its Python object identity `nid`
(two distinct live objects always have distinct ids).  Trees model the
acyclic schemas `projection` is run on; a `pointer` holds its target inline. -/
inductive OAM where
  | primitive (nid : Nat) (array : String) (masked : Bool)
  | listCount (nid : Nat) (countarray : String) (contents : OAM) (masked : Bool)
  | listOffset (nid : Nat) (offsetarray : String) (contents : OAM) (masked : Bool)
  | listStartEnd (nid : Nat) (startarray endarray : String) (contents : OAM) (masked : Bool)
  | record (nid : Nat) (contents : List (String × OAM))
  | tupleOf (nid : Nat) (contents : List OAM)
  | unionSparse (nid : Nat) (tagarray : String) (contents : List OAM) (masked : Bool)
  | unionSparseOffset (nid : Nat) (tagarray offsetarray : String) (contents : List OAM)
      (masked : Bool)
  | pointer (nid : Nat) (indexarray : String) (target : OAM) (masked : Bool)

/-- `id(self)`. -/
def OAM.nid : OAM → Nat
  | .primitive n _ _ => n
  | .listCount n _ _ _ => n
  | .listOffset n _ _ _ => n
  | .listStartEnd n _ _ _ _ => n
  | .record n _ => n
  | .tupleOf n _ => n
  | .unionSparse n _ _ _ => n
  | .unionSparseOffset n _ _ _ _ => n
  | .pointer n _ _ _ => n

mutual
/-- All node identities in a tree (`members`, reduced to ids). -/
def idsOf : OAM → List Nat
  | .primitive n _ _ => [n]
  | .listCount n _ c _ => n :: idsOf c
  | .listOffset n _ c _ => n :: idsOf c
  | .listStartEnd n _ _ c _ => n :: idsOf c
  | .record n cs => n :: idsOfFields cs
  | .tupleOf n cs => n :: idsOfList cs
  | .unionSparse n _ cs _ => n :: idsOfList cs
  | .unionSparseOffset n _ _ cs _ => n :: idsOfList cs
  | .pointer n _ t _ => n :: idsOf t

def idsOfList : List OAM → List Nat
  | [] => []
  | c :: rest => idsOf c ++ idsOfList rest

def idsOfFields : List (String × OAM) → List Nat
  | [] => []
  | (_, c) :: rest => idsOf c ++ idsOfFields rest
end

mutual
/-- `hasany(others, _memo)`: true when the node itself is identity-present in
`others`, else recurse.  Faithfully to the source, the multi-child classes
(`Record`, `Tuple`, the unions) execute `return x.hasany(others, _memo)`
unconditionally inside their child loop, so only the *first* not-yet-visited
child is ever consulted. -/
def hasany : OAM → List Nat → List Nat → Bool
  | .primitive n _ _, others, _ => others.contains n
  | .listCount n _ c _, others, memo =>
      others.contains n
        || (if memo.contains c.nid then false else hasany c others (c.nid :: memo))
  | .listOffset n _ c _, others, memo =>
      others.contains n
        || (if memo.contains c.nid then false else hasany c others (c.nid :: memo))
  | .listStartEnd n _ _ c _, others, memo =>
      others.contains n
        || (if memo.contains c.nid then false else hasany c others (c.nid :: memo))
  | .record n cs, others, memo => others.contains n || hasanyFirstF cs others memo
  | .tupleOf n cs, others, memo => others.contains n || hasanyFirst cs others memo
  | .unionSparse n _ cs _, others, memo => others.contains n || hasanyFirst cs others memo
  | .unionSparseOffset n _ _ cs _, others, memo =>
      others.contains n || hasanyFirst cs others memo
  | .pointer n _ t _, others, memo =>
      others.contains n
        || (if memo.contains t.nid then false else hasany t others (t.nid :: memo))

/-- The child loop `for x in contents: if id(x) not in _memo: _memo.add(id(x));
return x.hasany(others, _memo)` — returns on the first unvisited child. -/
def hasanyFirst : List OAM → List Nat → List Nat → Bool
  | [], _, _ => false
  | c :: rest, others, memo =>
      if memo.contains c.nid then hasanyFirst rest others memo
      else hasany c others (c.nid :: memo)

/-- The same loop over a `Record`'s named children. -/
def hasanyFirstF : List (String × OAM) → List Nat → List Nat → Bool
  | [], _, _ => false
  | (_, c) :: rest, others, memo =>
      if memo.contains c.nid then hasanyFirstF rest others memo
      else hasany c others (c.nid :: memo)
end

/-- The projection memo `_memo : dict(id -> projected node)`; a stored `none`
is both the placeholder installed before recursing and a pruned (`None`)
projection result, exactly as conflated in the Python dict. -/
abbrev PMemo := List (Nat × Option OAM)

/-- `m[k] = v` on an association list (overwrite, else append). -/
def assocSet {α : Type} (m : List (Nat × α)) (k : Nat) (v : α) : List (Nat × α) :=
  match m with
  | [] => [(k, v)]
  | (k2, v2) :: rest => if k2 = k then (k, v) :: rest else (k2, v2) :: assocSet rest k v

/-- The shared child-projection idiom every container class repeats:
`if id(x) not in _memo: _memo[id(x)] = None; _memo[id(x)] = x.projection(required, _memo)`
followed by `content = _memo[id(x)]`.  `recur` is the `x.projection(required, ·)`
call on the memo holding the fresh placeholder. -/
def childStep (x : OAM) (c : Nat) (memo : PMemo)
    (recur : PMemo → Option OAM × Nat × PMemo) : Option OAM × Nat × PMemo :=
  match memo.lookup x.nid with
  | some stored => (stored, c, memo)
  | none =>
      match recur (assocSet memo x.nid none) with
      | (r, c2, m2) => (r, c2, assocSet m2 x.nid r)

mutual
/-- `projection(required, _memo)`.  Every class first checks
`self.hasany(required)` (with a fresh hasany-memo) and prunes to `None` on
failure.  Otherwise children are projected through the shared memo idiom
(`if id(x) not in _memo: _memo[id(x)] = None; _memo[id(x)] = x.projection(...)`),
and the node is rebuilt as a *fresh* Python object: the counter `c` models the
allocator, so every constructor call consumes a fresh identity `≥ c`.
List and pointer nodes whose contents were pruned substitute a bare
`Primitive` wrapping their structural array; `Record`/`Tuple`/union nodes with
no surviving children prune to `None`. -/
def projection : OAM → List Nat → Nat → PMemo → Option OAM × Nat × PMemo
  | .primitive n a m, req, c, memo =>
      if hasany (.primitive n a m) req [] then (some (.primitive c a m), c + 1, memo)
      else (none, c, memo)
  | .listCount n arr ct m, req, c, memo =>
      if hasany (.listCount n arr ct m) req [] then
        let s := childStep ct c memo (fun m0 => projection ct req c m0)
        match s.1 with
        | some cc => (some (.listCount s.2.1 arr cc m), s.2.1 + 1, s.2.2)
        | none =>
            (some (.listCount (s.2.1 + 1) arr (.primitive s.2.1 arr m) m), s.2.1 + 2, s.2.2)
      else (none, c, memo)
  | .listOffset n arr ct m, req, c, memo =>
      if hasany (.listOffset n arr ct m) req [] then
        let s := childStep ct c memo (fun m0 => projection ct req c m0)
        match s.1 with
        | some cc => (some (.listOffset s.2.1 arr cc m), s.2.1 + 1, s.2.2)
        | none =>
            (some (.listOffset (s.2.1 + 1) arr (.primitive s.2.1 arr m) m), s.2.1 + 2, s.2.2)
      else (none, c, memo)
  | .listStartEnd n arr1 arr2 ct m, req, c, memo =>
      if hasany (.listStartEnd n arr1 arr2 ct m) req [] then
        let s := childStep ct c memo (fun m0 => projection ct req c m0)
        match s.1 with
        | some cc => (some (.listStartEnd s.2.1 arr1 arr2 cc m), s.2.1 + 1, s.2.2)
        | none =>
            (some (.listStartEnd (s.2.1 + 1) arr1 arr2 (.primitive s.2.1 arr1 m) m),
              s.2.1 + 2, s.2.2)
      else (none, c, memo)
  | .record n cs, req, c, memo =>
      if hasany (.record n cs) req [] then
        let s := projectionFields cs req c memo
        if s.1.isEmpty then (none, s.2.1, s.2.2)
        else (some (.record s.2.1 s.1), s.2.1 + 1, s.2.2)
      else (none, c, memo)
  | .tupleOf n cs, req, c, memo =>
      if hasany (.tupleOf n cs) req [] then
        let s := projectionList cs req c memo
        if s.1.isEmpty then (none, s.2.1, s.2.2)
        else (some (.tupleOf s.2.1 s.1), s.2.1 + 1, s.2.2)
      else (none, c, memo)
  | .unionSparse n arr cs m, req, c, memo =>
      if hasany (.unionSparse n arr cs m) req [] then
        let s := projectionList cs req c memo
        if s.1.isEmpty then (none, s.2.1, s.2.2)
        else (some (.unionSparse s.2.1 arr s.1 m), s.2.1 + 1, s.2.2)
      else (none, c, memo)
  | .unionSparseOffset n arr1 arr2 cs m, req, c, memo =>
      if hasany (.unionSparseOffset n arr1 arr2 cs m) req [] then
        let s := projectionList cs req c memo
        if s.1.isEmpty then (none, s.2.1, s.2.2)
        else (some (.unionSparseOffset s.2.1 arr1 arr2 s.1 m), s.2.1 + 1, s.2.2)
      else (none, c, memo)
  | .pointer n arr t m, req, c, memo =>
      if hasany (.pointer n arr t m) req [] then
        let s := childStep t c memo (fun m0 => projection t req c m0)
        match s.1 with
        | some tt => (some (.pointer s.2.1 arr tt m), s.2.1 + 1, s.2.2)
        | none =>
            (some (.pointer (s.2.1 + 1) arr (.primitive s.2.1 arr m) m), s.2.1 + 2, s.2.2)
      else (none, c, memo)

/-- The child loop of `Tuple.projection` / the unions' `projection`:
project each child through the memo, keep the non-`None` results in order. -/
def projectionList : List OAM → List Nat → Nat → PMemo → List OAM × Nat × PMemo
  | [], _, c, memo => ([], c, memo)
  | x :: rest, req, c, memo =>
      let s := childStep x c memo (fun m0 => projection x req c m0)
      let r := projectionList rest req s.2.1 s.2.2
      match s.1 with
      | some content => (content :: r.1, r.2)
      | none => r

/-- The child loop of `Record.projection`, keeping surviving fields by name. -/
def projectionFields : List (String × OAM) → List Nat → Nat → PMemo →
    List (String × OAM) × Nat × PMemo
  | [], _, c, memo => ([], c, memo)
  | (f, x) :: rest, req, c, memo =>
      let s := childStep x c memo (fun m0 => projection x req c m0)
      let r := projectionFields rest req s.2.1 s.2.2
      match s.1 with
      | some content => ((f, content) :: r.1, r.2)
      | none => r
end

/-- Every node identity of `T` is at least `n0`. -/
def IdsLB (n0 : Nat) (T : OAM) : Prop := ∀ i ∈ idsOf T, n0 ≤ i

/-- Every projected tree stored in the memo has identities at least `n0`. -/
def MemoLB (n0 : Nat) (memo : PMemo) : Prop :=
  ∀ kv ∈ memo, ∀ t, kv.2 = some t → IdsLB n0 t

/-- `IdsLB` lifted to an optional tree. -/
def IdsLBO (n0 : Nat) : Option OAM → Prop
  | none => True
  | some t => IdsLB n0 t

end Arrowed

namespace Oamap

/-! ### `oamap/proxy.py` — `ListProxy` -/

/-- The state of an `oamap.proxy.ListProxy`: `_start`, `_stop`, `_step`.
(`_arrays` holds the backing columns; scalar access abstracts the
materialization of one element as the `content` function.) -/
structure ListProxyS where
  start : Int
  stop : Int
  step : Int
deriving DecidableEq

/-- `ListProxy.__len__`: `(self._stop - self._start) // self._step`
(Python floor division). -/
def lplen (p : ListProxyS) : Int := (p.stop - p.start).fdiv p.step

/-- `ListProxy.__getitem__` with a slice argument (`none` = omitted bound):
default the bounds, clamp them into `[0, len(self)]`, floor the stop at the
start, reject only a zero step, and return the sub-view. -/
def lpGetSlice (p : ListProxyS) (start? stop? step? : Option Int) :
    Except String ListProxyS :=
  let lenself := lplen p
  let start0 := start?.getD 0
  let stop0 := stop?.getD lenself
  let step := step?.getD 1
  let start1 := min lenself (max 0 start0)
  let stop1 := min lenself (max 0 stop0)
  let stop2 := if stop1 < start1 then start1 else stop1
  if step = 0 then .error "slice step cannot be zero"
  else .ok ⟨p.start + p.step * start1, p.start + p.step * stop2, p.step * step⟩

/-- `ListProxy.__getitem__` with a scalar index: normalize a negative index by
adding `len(self)`, raise `IndexError` outside `[0, len(self))`, otherwise
materialize the element at `_start + _step * normalindex`. -/
def lpGetScalar {α : Type} (p : ListProxyS) (content : Int → α) (index : Int) :
    Except String α :=
  let lenself := lplen p
  let normalindex := if 0 ≤ index then index else index + lenself
  if 0 ≤ normalindex ∧ normalindex < lenself then
    .ok (content (p.start + p.step * normalindex))
  else .error "index is out of bounds for size"

end Oamap

namespace Plur

/-! ### `plur/python/convert.py` — the flattening encoder `toarrays`

The flattener's collaborators (`plur.types`, `plur.types.columns.type2columns`,
`plur.types.arrayname.ArrayName`, `plur.python.types.infertype`,
`plur.python.fillmemory.FillableInMemory`) are not under src/; they are
modelled from the spec where noted. -/

/-- Modelled from the spec: the plur type language walked by `toarrays`
(`Primitive | List | Union | Record`, §3), plus the spec's `Tuple` schema kind,
which the flattener's final `assert False` branch rejects.  Primitive domains
(`plur.types` is absent from src/) are modelled as the one integer primitive
whose membership test always passes. -/
inductive PType where
  | int
  | list (of : PType)
  | union (of : List PType)
  | record (fields : List (String × PType))
  | tup (of : List PType)

/-- A nested Python input value: a number, an iterable (non-dict), or a
dict / object with named fields. -/
inductive Value where
  | prim (n : Int)
  | list (xs : List Value)
  | record (fields : List (String × Value))

/-- Modelled from the spec: one segment of the structured column-name path
(`ArrayName.toListOffset/toListData/toUnionTag/toUnionOffset/toUnionData(tag)/
toRecord(field)`; §6: "prefix + delimiter-joined path segments per
field/list/union branch"). -/
inductive Seg where
  | listOffset
  | listData
  | unionTag
  | unionOffset
  | unionData (tag : Nat)
  | recField (f : String)
deriving DecidableEq

/-- Modelled from the spec: a column name is the path of segments from the
root (the `prefix` of `ArrayName(prefix)` is the empty path). -/
abbrev AName := List Seg

/-- The flattener's mutable state: the fillable columns plus the
`last_list_offset` and `last_union_offset` running-counter dicts (a Python
dict entry absent is the same as present-with-`0`/`[]`, since the code
initialises absent keys to 0 before use). -/
structure FillState where
  cols : AName → List Int
  lastList : AName → Int
  lastUnion : AName → Int

/-- Pointwise function update (one dict store). -/
def updFn {β : Type} (f : AName → β) (k : AName) (v : β) : AName → β :=
  fun n => if n = k then v else f n

/-- `fillables[name].fill(v)`: append `v` to one column. -/
def fillCol (st : FillState) (k : AName) (v : Int) : FillState :=
  { st with cols := updFn st.cols k (st.cols k ++ [v]) }

/-- The state at the start of `toarrays`: all columns empty, all counters 0. -/
def initState : FillState := ⟨fun _ => [], fun _ => 0, fun _ => 0⟩

/-- `fn in tpe.of` / field values of a Python object: a dict's items, and no
named fields on numbers or iterables. -/
def fieldsOf : Value → List (String × Value)
  | .record fs => fs
  | _ => []

/-- The integer stored for a primitive value. -/
def toIntD : Value → Int
  | .prim n => n
  | _ => 0

/-- The elements of an iterable value. -/
def unlist : Value → List Value
  | .list xs => xs
  | _ => []

/-- `len(obj)` of an iterable value, as the int the offset counter adds. -/
def lenOf (v : Value) : Int := Int.ofNat (unlist v).length

/-- `len(obj)` as a natural number. -/
def lenN (v : Value) : Nat := (unlist v).length

/-- Total element count of the first `i` rows (the content position at which
row `i` of a list column starts). -/
def preLen (vs : List Value) (i : Nat) : Nat := ((vs.take i).map lenN).sum

/-- `obj[f]` with a default (total for lemma plumbing; canonical values
always have the field). -/
def getFieldD (f : String) (v : Value) : Value :=
  ((fieldsOf v).lookup f).getD (.prim 0)

mutual
/-- Modelled from the spec: canonical conformance of a value to a plur type —
"a nested value conforming to a schema".  A record value carries exactly the
declared fields in declaration order; a union value is classified by its
first compatible possibility (`infertype(obj).issubtype(possibility)`,
classification being a pluggable external capability per §4.4); tuples have
no values (the flattener rejects them). -/
def canon : Value → PType → Bool
  | v, .int => match v with | .prim _ => true | _ => false
  | v, .list of => match v with | .list xs => canonItems xs of | _ => false
  | v, .union of => (chooseTag v of).isSome
  | v, .record tfs => match v with | .record fs => canonFields fs tfs | _ => false
  | _, .tup _ => false
termination_by v T => sizeOf v + sizeOf T

/-- Every element of an iterable conforms to the list's content type. -/
def canonItems : List Value → PType → Bool
  | [], _ => true
  | x :: xs, of => canon x of && canonItems xs of
termination_by xs of => sizeOf xs + sizeOf of

/-- Record fields match the declared fields exactly, by name and in order. -/
def canonFields : List (String × Value) → List (String × PType) → Bool
  | [], [] => true
  | (f, x) :: fs, (g, t) :: ts => f == g && canon x t && canonFields fs ts
  | _, _ => false
termination_by fs ts => sizeOf fs + sizeOf ts

/-- The first possibility the value conforms to, as a 0-based tag
(the flattener's `for i, possibility in enumerate(tpe.of): if
t.issubtype(possibility): tag = i`). -/
def chooseTag : Value → List PType → Option Nat
  | _, [] => none
  | v, t :: ts => if canon v t then some 0 else (chooseTag v ts).map (· + 1)
termination_by v ts => sizeOf v + sizeOf ts
end

/-- The failures of `recurse` in `toarrays`. -/
inductive FErr where
  | typeMismatch
  | missingField
  | unexpectedType
deriving DecidableEq

mutual
/-- `recurse(obj, tpe, name)` of `toarrays` (convert.py lines 36-100):
* Primitive: check membership, append the value to the column at `name`.
* List: reject non-iterables (and dicts), add `len(obj)` to the
  `last_list_offset` counter of `name.toListOffset()`, append the new running
  total to that offset column, then flatten each element at
  `name.toListData()`.
* Union: classify the value (first compatible possibility), append the tag to
  `name.toUnionTag()` and the selected branch's `last_union_offset` counter to
  `name.toUnionOffset()`, increment that per-branch counter (keyed by
  `name.toUnionData(tag)`), then flatten the value against the branch type at
  that branch name.
* Record: for each declared field in order, look the field up on the value
  (missing field is a `TypeError`) and flatten it at `name.toRecord(fn)`.
* anything else: `assert False, "unexpected type object"`. -/
def recurse : Value → PType → AName → FillState → Except FErr FillState
  | v, .int, name, st =>
      match v with
      | .prim n => .ok (fillCol st name n)
      | _ => .error .typeMismatch
  | v, .list of, name, st =>
      match v with
      | .list xs =>
          let nameoffset := name ++ [Seg.listOffset]
          let namedata := name ++ [Seg.listData]
          let newlast := st.lastList nameoffset + Int.ofNat xs.length
          let st1 := fillCol { st with lastList := updFn st.lastList nameoffset newlast }
            nameoffset newlast
          recurseItems xs of namedata st1
      | _ => .error .typeMismatch
  | v, .union of, name, st =>
      match chooseTag v of with
      | none => .error .typeMismatch
      | some tag =>
          let nametag := name ++ [Seg.unionTag]
          let nameoffset := name ++ [Seg.unionOffset]
          let namedata := name ++ [Seg.unionData tag]
          let off := st.lastUnion namedata
          let st1 := fillCol (fillCol st nametag (Int.ofNat tag)) nameoffset off
          let st2 := { st1 with lastUnion := updFn st1.lastUnion namedata (off + 1) }
          recurse v (of.getD tag .int) namedata st2
  | v, .record tfs, name, st => recurseFields tfs v name st
  | _, .tup _, _, _ => .error .unexpectedType
termination_by v T name st => sizeOf v + sizeOf T
decreasing_by
  all_goals simp_wf
  all_goals try omega
  · have hg : ∀ (l : List PType) (t : Nat), sizeOf (l[t]?.getD PType.int) < 1 + sizeOf l := by
      intro l
      induction l with
      | nil => intro t; simp
      | cons a as ih =>
          intro t
          cases t with
          | zero => simp; omega
          | succ t2 =>
              have := ih t2
              simp at this ⊢
              omega
    have := hg of tag
    omega

/-- The `for x in obj: recurse(x, tpe.of, namedata)` loop. -/
def recurseItems : List Value → PType → AName → FillState → Except FErr FillState
  | [], _, _, st => .ok st
  | x :: xs, of, namedata, st =>
      match recurse x of namedata st with
      | .error e => .error e
      | .ok st1 => recurseItems xs of namedata st1
termination_by xs of namedata st => sizeOf xs + sizeOf of

/-- The `for fn, ft in tpe.of: recurse(obj[fn], ft, name.toRecord(fn))` loop. -/
def recurseFields : List (String × PType) → Value → AName → FillState → Except FErr FillState
  | [], _, _, st => .ok st
  | (fn, ft) :: rest, obj, name, st =>
      match hx : (fieldsOf obj).lookup fn with
      | none => .error .missingField
      | some x =>
          match recurse x ft (name ++ [Seg.recField fn]) st with
          | .error e => .error e
          | .ok st1 => recurseFields rest obj name st1
termination_by tfs obj name st => sizeOf tfs + sizeOf obj
decreasing_by
  all_goals simp_wf
  all_goals try omega
  · have hlk : ∀ (l : List (String × Value)) (fn : String) (x : Value),
        List.lookup fn l = some x → sizeOf x < sizeOf l := by
      intro l
      induction l with
      | nil => intro fn x h; simp [List.lookup] at h
      | cons p ps ih =>
          intro fn x h
          rw [List.lookup] at h
          split at h
          · rcases p with ⟨a, b⟩
            cases h
            simp
            omega
          · have := ih fn x h
            rcases p with ⟨a, b⟩
            simp at this ⊢
            omega
    have hfo : sizeOf (fieldsOf obj) ≤ sizeOf obj := by
      cases obj <;> simp [fieldsOf] <;> omega
    have := hlk (fieldsOf obj) fn x hx
    omega
end

/-- Modelled from the spec: `FillableInMemory.finalize` plus the key algebra —
the finalized column set read back by the resolver; the offset column of a
list carries the leading 0 of the canonical offsets (§8 scenario 4:
flattening `{x:1, y:[1,2,3]}` gives y-offset `[0,3]`). -/
def finalizeCols (c : AName → List Int) : AName → List Int :=
  fun n =>
    match n.getLast? with
    | some Seg.listOffset => 0 :: c n
    | _ => c n

/-- `toarrays(prefix, obj, tpe)`: run `recurse` from the empty fillables and
finalize the columns. -/
def toarraysCols (T : PType) (v : Value) : Except FErr (AName → List Int) :=
  (recurse v T [] initState).map (fun st => finalizeCols st.cols)

/-- Schema well-formedness: no `Tuple` nodes (the flattener rejects them) and
no duplicate record field names (§3: a Record is a name→child *mapping*). -/
def nodupKeys : List String → Bool
  | [] => true
  | f :: fs => (!fs.contains f) && nodupKeys fs

mutual
def wf : PType → Bool
  | .int => true
  | .list of => wf of
  | .union of => wfList of
  | .record tfs => nodupKeys (tfs.map Prod.fst) && wfFields tfs
  | .tup _ => false

def wfList : List PType → Bool
  | [] => true
  | t :: ts => wf t && wfList ts

def wfFields : List (String × PType) → Bool
  | [] => true
  | (_, t) :: ts => wf t && wfFields ts
end

/-! ### The reader: arrowed schema over the flattened columns

`type2columns` and the plur→arrowed schema correspondence are not under src/;
the schema construction is modelled from the spec (§2: "the core depends only
on this key algebra being stable and round-trippable between Flattener's
output and Resolver's input"), while resolution and materialization follow
`ListOffset.resolved`, `UnionSparseOffset.resolved` and the proxy classes of
arrowed/schema.py. -/

/-- An unresolved arrowed schema over named columns: the reader-side template
for a flattened plur type. -/
inductive ASch where
  | prim (name : AName)
  | listOffset (offsetName : AName) (contents : ASch)
  | unionSO (tagName offsetName : AName) (possibilities : List ASch)
  | record (fields : List (String × ASch))

mutual
/-- Modelled from the spec: the arrowed template a plur type maps to —
Primitive reads its own column, List its offset column (`ListOffset`
encoding, resolved to the canonical start/end pair), Union its tag and offset
columns (`UnionSparseOffset`, since the flattener writes both), Record is
purely structural. -/
def arrowedOf : PType → AName → ASch
  | .int, nm => .prim nm
  | .list of, nm =>
      .listOffset (nm ++ [Seg.listOffset]) (arrowedOf of (nm ++ [Seg.listData]))
  | .union of, nm =>
      .unionSO (nm ++ [Seg.unionTag]) (nm ++ [Seg.unionOffset]) (arrowedOfUnion of 0 nm)
  | .record tfs, nm => .record (arrowedOfFields tfs nm)
  | .tup _, _ => .record []

def arrowedOfUnion : List PType → Nat → AName → List ASch
  | [], _, _ => []
  | t :: ts, b, nm => arrowedOf t (nm ++ [Seg.unionData b]) :: arrowedOfUnion ts (b + 1) nm

def arrowedOfFields : List (String × PType) → AName → List (String × ASch)
  | [], _ => []
  | (f, ft) :: ts, nm => (f, arrowedOf ft (nm ++ [Seg.recField f])) :: arrowedOfFields ts nm
end

/-- A resolved arrowed schema: every reference bound to its column.  Lists are
in canonical start/end form (`ListOffset.resolved` takes
`startarray = offsetarray[:-1]`, `endarray = offsetarray[1:]`). -/
inductive RSch where
  | prim (arr : List Int)
  | lse (starts ends : List Int) (contents : RSch)
  | unionSO (tags offs : List Int) (possibilities : List RSch)
  | record (fields : List (String × RSch))

mutual
/-- Non-lazy resolution of the reader template against the finalized columns
(`Primitive.resolved` / `ListOffset.resolved` / `UnionSparseOffset.resolved` /
`Record.resolved`; a total source, so the lookup/validation failures of
`_resolved` cannot fire). -/
def resolveA : ASch → (AName → List Int) → RSch
  | .prim nm, c => .prim (c nm)
  | .listOffset onm contents, c =>
      let o := c onm
      .lse o.dropLast (o.drop 1) (resolveA contents c)
  | .unionSO tnm onm poss, c => .unionSO (c tnm) (c onm) (resolveAList poss c)
  | .record fs, c => .record (resolveAFields fs c)

def resolveAList : List ASch → (AName → List Int) → List RSch
  | [], _ => []
  | a :: rest, c => resolveA a c :: resolveAList rest c

def resolveAFields : List (String × ASch) → (AName → List Int) → List (String × RSch)
  | [], _ => []
  | (f, a) :: rest, c => (f, resolveA a c) :: resolveAFields rest c
end

mutual
/-- Materialization of row `index` of a resolved node, after the proxy
classes of arrowed (`Primitive.proxy` reads `array[index]`;
`ListStartEnd.proxy` yields the sequence view over `[start[i], end[i])`,
realized eagerly by materializing each element; `UnionSparseOffset.proxy`
reads `tag[i]`, `offset[i]` and recurses into the selected possibility;
`RecordProxy` exposes each declared field at the same row).  `none` models a
raised `IndexError` / out-of-range dispatch. -/
def materialize : RSch → Nat → Option Value
  | .prim arr, i => (arr.get? i).map .prim
  | .lse ss es contents, i =>
      match ss.get? i, es.get? i with
      | some s, some e =>
          match materializeRange contents s (e - s).toNat with
          | some xs => some (.list xs)
          | none => none
      | _, _ => none
  | .unionSO tags offs poss, i =>
      match tags.get? i, offs.get? i with
      | some t, some o =>
          if h : 0 ≤ t ∧ t.toNat < poss.length then
            materialize (poss.get ⟨t.toNat, h.2⟩) o.toNat
          else none
      | _, _ => none
  | .record fs, i =>
      match materializeFields fs i with
      | some vfs => some (.record vfs)
      | none => none
termination_by r i => (2 * sizeOf r, 0)
decreasing_by
  all_goals simp_wf
  all_goals try exact Prod.Lex.left _ _ (by omega)
  · have hm := List.sizeOf_lt_of_mem (List.getElem_mem h.2)
    exact Prod.Lex.left _ _ (by omega)

/-- The elements of a list view: positions `s, s+1, ..., s+cnt-1` of the
content node (the view's iteration order with step 1). -/
def materializeRange : RSch → Int → Nat → Option (List Value)
  | _, _, 0 => some []
  | contents, s, cnt + 1 =>
      match materialize contents s.toNat with
      | none => none
      | some x =>
          match materializeRange contents (s + 1) cnt with
          | none => none
          | some xs => some (x :: xs)
termination_by contents s cnt => (2 * sizeOf contents + 1, cnt)
decreasing_by
  all_goals simp_wf
  · exact Prod.Lex.left _ _ (by omega)
  · exact Prod.Lex.right _ (by omega)

/-- The declared fields of a record row, each materialized at the same row. -/
def materializeFields : List (String × RSch) → Nat → Option (List (String × Value))
  | [], _ => some []
  | (f, r) :: rest, i =>
      match materialize r i with
      | none => none
      | some x =>
          match materializeFields rest i with
          | none => none
          | some xs => some ((f, x) :: xs)
termination_by fs i => (2 * sizeOf fs + 1, 0)
decreasing_by
  all_goals simp_wf
  all_goals exact Prod.Lex.left _ _ (by omega)
end

/-! ### Encoding devices for the round-trip proof -/

/-- `sum(len(v) for v in vs)`. -/
def sumLens (vs : List Value) : Int := (vs.map lenOf).sum

/-- Tag column of a union node over rows `vs`. -/
def tagsOf (of : List PType) (vs : List Value) : List Int :=
  vs.map (fun v => Int.ofNat ((chooseTag v of).getD 0))

/-- The rows classified into possibility `b`, in row order. -/
def branchVals (of : List PType) (b : Nat) (vs : List Value) : List Value :=
  vs.filter (fun v => chooseTag v of == some b)

/-- Offset column of a union node: row `i` gets the number of earlier rows
with the same tag. -/
def uoffsOf (of : List PType) (vs : List Value) : List Int :=
  (List.range vs.length).map
    (fun i => Int.ofNat
      (branchVals of ((chooseTag (vs.getD i (.prim 0)) of).getD 0) (vs.take i)).length)

/-- The raw (un-finalized) column at relative path `rel` below a node of type
`T` holding the flattened sequence `vs` of values. -/
def encCols : PType → List Value → List Seg → List Int
  | .int, vs, [] => vs.map toIntD
  | .list _, vs, [Seg.listOffset] => Arrowed.cumsum 0 (vs.map lenOf)
  | .list of, vs, Seg.listData :: rest => encCols of (vs.flatMap unlist) rest
  | .union of, vs, [Seg.unionTag] => tagsOf of vs
  | .union of, vs, [Seg.unionOffset] => uoffsOf of vs
  | .union of, vs, Seg.unionData b :: rest => encCols (of.getD b .int) (branchVals of b vs) rest
  | .record tfs, vs, Seg.recField f :: rest =>
      match tfs.lookup f with
      | some ft => encCols ft (vs.map (getFieldD f)) rest
      | none => []
  | _, _, _ => []
termination_by T vs rel => rel.length

/-- The `last_list_offset` counter at relative path `rel`. -/
def encLL : PType → List Value → List Seg → Int
  | .list _, vs, [Seg.listOffset] => sumLens vs
  | .list of, vs, Seg.listData :: rest => encLL of (vs.flatMap unlist) rest
  | .union of, vs, Seg.unionData b :: rest => encLL (of.getD b .int) (branchVals of b vs) rest
  | .record tfs, vs, Seg.recField f :: rest =>
      match tfs.lookup f with
      | some ft => encLL ft (vs.map (getFieldD f)) rest
      | none => 0
  | _, _, _ => 0
termination_by T vs rel => rel.length

/-- The `last_union_offset` counter at relative path `rel`. -/
def encLU : PType → List Value → List Seg → Int
  | .union of, vs, [Seg.unionData b] => Int.ofNat (branchVals of b vs).length
  | .union of, vs, Seg.unionData b :: rest => encLU (of.getD b .int) (branchVals of b vs) rest
  | .list of, vs, Seg.listData :: rest => encLU of (vs.flatMap unlist) rest
  | .record tfs, vs, Seg.recField f :: rest =>
      match tfs.lookup f with
      | some ft => encLU ft (vs.map (getFieldD f)) rest
      | none => 0
  | _, _, _ => 0
termination_by T vs rel => rel.length

/-- `n` lies in the subtree of names below `nm`. -/
def Under (nm n : AName) : Prop := ∃ rel, n = nm ++ rel

/-- `n` lies strictly below `nm`. -/
def UnderP (nm n : AName) : Prop := ∃ rel, rel ≠ [] ∧ n = nm ++ rel

/-- The state correspondence: below `nm`, the columns and counters are exactly
the encodings of the already-flattened sequence `vs` (counters live strictly
below a node's own name). -/
def StOK (T : PType) (vs : List Value) (nm : AName) (st : FillState) : Prop :=
  (∀ rel, st.cols (nm ++ rel) = encCols T vs rel) ∧
  (∀ rel, rel ≠ [] → st.lastList (nm ++ rel) = encLL T vs rel) ∧
  (∀ rel, rel ≠ [] → st.lastUnion (nm ++ rel) = encLU T vs rel)

/-- Frame: one `recurse` call touches only names below its own,
and counters only strictly below. -/
def Frame (nm : AName) (st st2 : FillState) : Prop :=
  (∀ n, ¬ Under nm n → st2.cols n = st.cols n) ∧
  (∀ n, ¬ UnderP nm n → st2.lastList n = st.lastList n ∧ st2.lastUnion n = st.lastUnion n)

/-- The operational statement for `recurse` at fuel `k`: flattening one more
conforming value extends the encodings below the call name by that value and
touches nothing else. -/
def PFill (k : Nat) : Prop :=
  ∀ (v : Value) (T : PType) (nm : AName) (st : FillState) (vs : List Value),
    sizeOf v + sizeOf T < k → canon v T = true → wf T = true → StOK T vs nm st →
    ∃ st2, recurse v T nm st = .ok st2 ∧ StOK T (vs ++ [v]) nm st2 ∧ Frame nm st st2

/-- The operational statement for the `recurseItems` loop at fuel `k`. -/
def PItems (k : Nat) : Prop :=
  ∀ (xs : List Value) (of : PType) (nm : AName) (st : FillState) (fl : List Value),
    sizeOf xs + sizeOf of < k → (∀ x ∈ xs, canon x of = true) → wf of = true →
    StOK of fl nm st →
    ∃ st2, recurseItems xs of nm st = .ok st2 ∧ StOK of (fl ++ xs) nm st2 ∧ Frame nm st st2

/-- The operational statement for the `recurseFields` loop at fuel `k`: each
remaining field's subtree is extended by the field value, and only those
subtrees are touched. -/
def PFields (k : Nat) : Prop :=
  ∀ (ts : List (String × PType)) (v : Value) (nm : AName) (st : FillState)
    (vs : List Value),
    sizeOf ts + sizeOf v < k →
    (∀ p ∈ ts, wf p.2 = true ∧ canon (getFieldD p.1 v) p.2 = true
      ∧ (fieldsOf v).lookup p.1 = some (getFieldD p.1 v)) →
    nodupKeys (ts.map Prod.fst) = true →
    (∀ p ∈ ts, StOK p.2 (vs.map (getFieldD p.1)) (nm ++ [Seg.recField p.1]) st) →
    ∃ st2, recurseFields ts v nm st = .ok st2
      ∧ (∀ p ∈ ts, StOK p.2 ((vs ++ [v]).map (getFieldD p.1))
          (nm ++ [Seg.recField p.1]) st2)
      ∧ (∀ n, (∀ p ∈ ts, ¬ Under (nm ++ [Seg.recField p.1]) n) → st2.cols n = st.cols n)
      ∧ (∀ n, (∀ p ∈ ts, ¬ UnderP (nm ++ [Seg.recField p.1]) n) →
          st2.lastList n = st.lastList n ∧ st2.lastUnion n = st.lastUnion n)

mutual
/-- The resolved reader for type `T` over the flattened sequence `vs`:
what `resolveA (arrowedOf T nm) (finalizeCols …)` evaluates to. -/
def rschOf : PType → List Value → RSch
  | .int, vs => .prim (vs.map toIntD)
  | .list of, vs =>
      let o := 0 :: Arrowed.cumsum 0 (vs.map lenOf)
      .lse o.dropLast (o.drop 1) (rschOf of (vs.flatMap unlist))
  | .union of, vs => .unionSO (tagsOf of vs) (uoffsOf of vs) (rschOfUnion of of 0 vs)
  | .record tfs, vs => .record (rschOfFields tfs vs)
  | .tup _, _ => .record []
termination_by T vs => 2 * sizeOf T

def rschOfUnion : List PType → List PType → Nat → List Value → List RSch
  | _, [], _, _ => []
  | of, t :: ts, b, vs => rschOf t (branchVals of b vs) :: rschOfUnion of ts (b + 1) vs
termination_by of ts b vs => 2 * sizeOf ts + 1

def rschOfFields : List (String × PType) → List Value → List (String × RSch)
  | [], _ => []
  | (f, ft) :: ts, vs => (f, rschOf ft (vs.map (getFieldD f))) :: rschOfFields ts vs
termination_by tfs vs => 2 * sizeOf tfs + 1
end

end Plur

/-! ## Theorems -/

namespace Arrowed

theorem cumsum_length : ∀ (l : List Int) (a : Int), (cumsum a l).length = l.length
  | [], _ => rfl
  | c :: cs, a => by simp [cumsum, cumsum_length cs (a + c)]

theorem cumsum_getD : ∀ (l : List Int) (a : Int) (i : Nat), i < l.length →
    (cumsum a l).getD i 0 = a + (l.take (i + 1)).sum
  | [], _, i, h => by simp at h
  | c :: cs, a, 0, _ => by simp [cumsum]
  | c :: cs, a, i + 1, h => by
      have ih := cumsum_getD cs (a + c) i (by simpa using h)
      simp only [cumsum, List.getD_cons_succ, List.take_succ_cons, List.sum_cons, ih]
      ring

theorem listCountOffsetarray_getD (counts : List Int) (i : Nat) (h : i ≤ counts.length) :
    (listCountOffsetarray counts).getD i 0 = (counts.take i).sum := by
  cases i with
  | zero => simp [listCountOffsetarray]
  | succ j =>
      have := cumsum_getD counts 0 j (by omega)
      simp only [listCountOffsetarray, List.getD_cons_succ, this]
      ring

theorem listCountOffsetarray_length (counts : List Int) :
    (listCountOffsetarray counts).length = counts.length + 1 := by
  simp [listCountOffsetarray, cumsum_length]

/-- **C3** — List canonicalization from counts: `ListCount.resolved` cumulative-sums
the count array into a single fresh offset buffer `o` of length `N + 1` with
`o[0] = 0` and `o[i+1] = o[i] + c[i]`; the resolved node's `startarray` and
`endarray` are the views `o[:-1]` and `o[1:]` of that one buffer (never
separately allocated), so `end[i] - start[i] = c[i]` for every `i < N`;
in particular counts `[2, 0, 3]` yield offsets `[0, 2, 2, 5]`. -/
theorem listCount_resolved_canonical (countarray : MArr) :
    (listCountOffsetarray countarray.data).length = countarray.data.length + 1 ∧
    (listCountOffsetarray countarray.data).getD 0 0 = 0 ∧
    (∀ i, i < countarray.data.length →
        (listCountOffsetarray countarray.data).getD (i + 1) 0
          = (listCountOffsetarray countarray.data).getD i 0 + countarray.data.getD i 0) ∧
    (listCountResolved countarray).1.data = (listCountOffsetarray countarray.data).dropLast ∧
    (listCountResolved countarray).2.data = (listCountOffsetarray countarray.data).drop 1 ∧
    (∀ i, i < countarray.data.length →
        (listCountResolved countarray).2.data.getD i 0
          - (listCountResolved countarray).1.data.getD i 0 = countarray.data.getD i 0) ∧
    listCountOffsetarray [2, 0, 3] = [0, 2, 2, 5] := by
  refine ⟨listCountOffsetarray_length _, by simp [listCountOffsetarray], ?_, rfl, rfl, ?_, by decide⟩
  · intro i hi
    rw [listCountOffsetarray_getD _ (i + 1) (by omega), listCountOffsetarray_getD _ i (by omega)]
    rw [List.take_succ, List.sum_append, List.getElem?_eq_getElem hi]
    have : countarray.data.getD i 0 = countarray.data[i] := List.getD_eq_getElem _ _ hi
    simp [this, List.getElem?_eq_getElem hi]
  · intro i hi
    have hstart : (listCountResolved countarray).1.data.getD i 0
        = (listCountOffsetarray countarray.data).getD i 0 := by
      show (listCountOffsetarray countarray.data).dropLast.getD i 0 = _
      have hlen := listCountOffsetarray_length countarray.data
      have hi' : i < (listCountOffsetarray countarray.data).dropLast.length := by
        simp [hlen]; omega
      rw [List.getD_eq_getElem _ _ hi', List.getElem_dropLast,
        List.getD_eq_getElem _ _ (by omega)]
    have hend : (listCountResolved countarray).2.data.getD i 0
        = (listCountOffsetarray countarray.data).getD (i + 1) 0 := by
      show ((listCountOffsetarray countarray.data).drop 1).getD i 0 = _
      simp [listCountOffsetarray]
    rw [hstart, hend, listCountOffsetarray_getD _ (i + 1) (by omega),
      listCountOffsetarray_getD _ i (by omega), List.take_succ, List.sum_append,
      List.getElem?_eq_getElem hi]
    have : countarray.data.getD i 0 = countarray.data[i] := List.getD_eq_getElem _ _ hi
    simp [this, List.getElem?_eq_getElem hi]

/-- Witness for `listCount_resolved_canonical` at counts `[2, 0, 3]`. -/
theorem listCount_resolved_canonical_witness :
    (listCountOffsetarray [2, 0, 3]).getD 2 0
        = (listCountOffsetarray [2, 0, 3]).getD 1 0 + ([2, 0, 3] : List Int).getD 1 0 ∧
    (listCountResolved ⟨[2, 0, 3], none⟩).2.data.getD 2 0
        - (listCountResolved ⟨[2, 0, 3], none⟩).1.data.getD 2 0 = ([2, 0, 3] : List Int).getD 2 0 := by
  have h := listCount_resolved_canonical ⟨[2, 0, 3], none⟩
  exact ⟨h.2.2.1 1 (by decide), h.2.2.2.2.2.1 2 (by decide)⟩

theorem assignLinspace_length : ∀ (off : List Int) (tags : List Int) (t : Int) (i : Nat),
    (assignLinspace tags t i off).length = off.length
  | [], _, _, _ => rfl
  | v :: rest, tags, t, i => by
      simp [assignLinspace, assignLinspace_length rest tags t (i + 1)]

theorem assignLinspace_getD : ∀ (off : List Int) (tags : List Int) (t : Int) (i0 j : Nat),
    j < off.length →
    (assignLinspace tags t i0 off).getD j 0
      = if tags.getD (i0 + j) 0 == t then rankIn tags t (i0 + j) else off.getD j 0
  | [], _, _, _, j, h => by simp at h
  | v :: rest, tags, t, i0, 0, _ => by simp [assignLinspace]
  | v :: rest, tags, t, i0, j + 1, h => by
      have ih := assignLinspace_getD rest tags t (i0 + 1) j (by simpa using h)
      simp only [assignLinspace, List.getD_cons_succ, ih]
      have : i0 + 1 + j = i0 + (j + 1) := by omega
      rw [this]

theorem foldl_assign_length : ∀ (L : List Nat) (tags : List Int) (init : List Int),
    (L.foldl (fun off tag => assignLinspace tags (Int.ofNat tag) 0 off) init).length
      = init.length
  | [], _, _ => rfl
  | t :: L, tags, init => by
      rw [List.foldl_cons, foldl_assign_length L tags _, assignLinspace_length]

theorem foldl_assign_getD : ∀ (L : List Nat) (tags : List Int) (init : List Int) (j : Nat),
    init.length = tags.length → j < tags.length →
    (L.foldl (fun off tag => assignLinspace tags (Int.ofNat tag) 0 off) init).getD j 0
      = if L.any (fun t => tags.getD j 0 == Int.ofNat t) then rankIn tags (tags.getD j 0) j
        else init.getD j 0
  | [], _, _, _, _, _ => by simp
  | t :: L, tags, init, j, hlen, hj => by
      rw [List.foldl_cons]
      have hlen' : (assignLinspace tags (Int.ofNat t) 0 init).length = tags.length := by
        rw [assignLinspace_length]; exact hlen
      have ih := foldl_assign_getD L tags (assignLinspace tags (Int.ofNat t) 0 init) j hlen' hj
      rw [ih, assignLinspace_getD init tags (Int.ofNat t) 0 j (by omega)]
      simp only [Nat.zero_add, List.any_cons]
      by_cases h2 : (L.any fun s => tags.getD j 0 == Int.ofNat s) = true
      · have h2' : ∃ x ∈ L, tags[j]?.getD 0 = (x : Int) := by simpa using h2
        simp [h2']
      · rw [Bool.not_eq_true] at h2
        have h2' : ¬ ∃ x ∈ L, tags[j]?.getD 0 = (x : Int) := by simpa using h2
        by_cases h1 : (tags.getD j 0 == Int.ofNat t) = true
        · have h1' : tags[j]?.getD 0 = (t : Int) := by simpa using eq_of_beq h1
          simp [h2', h1']
        · rw [Bool.not_eq_true] at h1
          have h1' : ¬ tags[j]?.getD 0 = (t : Int) := by
            intro hc
            have hc' : tags.getD j 0 = Int.ofNat t := by simpa using hc
            rw [hc'] at h1
            simp at h1
          simp [h2', h1']

theorem rankIn_strict_mono (tags : List Int) (t : Int) (i j : Nat)
    (hij : i < j) (hj : j ≤ tags.length) (ht : tags.getD i 0 = t) :
    rankIn tags t i < rankIn tags t j := by
  have hi : i < tags.length := by omega
  unfold rankIn
  have key : (tags.take i).countP (fun x => x == t) + 1
      ≤ (tags.take j).countP (fun x => x == t) := by
    have hsucc : (tags.take (i + 1)).countP (fun x => x == t)
        = (tags.take i).countP (fun x => x == t) + 1 := by
      rw [List.take_succ, List.countP_append, List.getElem?_eq_getElem hi]
      have : tags[i] = t := by rw [← ht]; exact (List.getD_eq_getElem _ _ hi).symm
      simp [List.countP_cons, this]
    have hmono : (tags.take (i + 1)).countP (fun x => x == t)
        ≤ (tags.take j).countP (fun x => x == t) := by
      have h1 : (tags.take j).take (i + 1) = tags.take (i + 1) := by
        rw [List.take_take]; congr 1; omega
      calc (tags.take (i + 1)).countP (fun x => x == t)
          = ((tags.take j).take (i + 1)).countP (fun x => x == t) := by rw [h1]
        _ ≤ (tags.take j).countP (fun x => x == t) := by
            conv_rhs => rw [← List.take_append_drop (i + 1) (tags.take j)]
            rw [List.countP_append]; omega
    omega
  exact Int.ofNat_lt.mpr (by omega)

/-- **C4** — Union auto-offset synthesis: for a resolved tag array of length `N`
over `K` possibilities with every tag in `[0, K)`, `UnionSparse.resolved`'s
synthesized offset array gives the `i`-th row the 0-based running count of its
tag among the rows before it, these auto-offsets strictly increase within each
tag's row subsequence, and tags `[0, 1, 0]` yield auto-offsets `[0, 0, 1]`
(whatever junk the uninitialised buffer held). -/
theorem unionSparse_auto_offsets (tags : List Int) (K : Nat) (init : List Int)
    (hlen : init.length = tags.length)
    (htag : ∀ i, i < tags.length → 0 ≤ tags.getD i 0 ∧ tags.getD i 0 < (K : Int)) :
    (∀ i, i < tags.length →
        (unionSparseOffsets tags K init).getD i 0 = rankIn tags (tags.getD i 0) i) ∧
    (∀ i j, i < j → j < tags.length → tags.getD i 0 = tags.getD j 0 →
        (unionSparseOffsets tags K init).getD i 0
          < (unionSparseOffsets tags K init).getD j 0) ∧
    unionSparseOffsets [0, 1, 0] 2 [5, 5, 5] = [0, 0, 1] := by
  have main : ∀ i, i < tags.length →
      (unionSparseOffsets tags K init).getD i 0 = rankIn tags (tags.getD i 0) i := by
    intro i hi
    rw [unionSparseOffsets, foldl_assign_getD (List.range K) tags init i hlen hi]
    have hmem : (List.range K).any (fun t => tags.getD i 0 == Int.ofNat t) = true := by
      rw [List.any_eq_true]
      refine ⟨(tags.getD i 0).toNat, List.mem_range.2 ?_, ?_⟩
      · have h1 := (htag i hi).1
        have h2 := (htag i hi).2
        omega
      · have := (htag i hi).1
        simp only [beq_iff_eq, Int.ofNat_eq_natCast]
        omega
    rw [hmem]; simp
  refine ⟨main, ?_, by decide⟩
  intro i j hij hj heq
  rw [main i (by omega), main j hj, heq]
  exact rankIn_strict_mono tags (tags.getD j 0) i j hij (by omega) heq

/-- Witness for `unionSparse_auto_offsets` at tags `[0, 1, 0]` over two
possibilities, starting from junk buffer `[5, 5, 5]`. -/
theorem unionSparse_auto_offsets_witness :
    (unionSparseOffsets [0, 1, 0] 2 [5, 5, 5]).getD 2 0 = rankIn [0, 1, 0] 0 2 ∧
    (unionSparseOffsets [0, 1, 0] 2 [5, 5, 5]).getD 0 0
      < (unionSparseOffsets [0, 1, 0] 2 [5, 5, 5]).getD 2 0 := by
  have h := unionSparse_auto_offsets [0, 1, 0] 2 [5, 5, 5] (by decide) (by decide)
  exact ⟨h.1 2 (by decide), h.2.1 0 2 (by decide) (by decide) (by decide)⟩

/-- **C5** — code bug in `ListStartEnd.resolved` (arrowed/schema.py line 526):
with a source binding the start reference `"s"` to `[0]` and the end reference
`"e"` to `[2]` (the `(offsets[:-1], offsets[1:])` pair of offsets `[0, 2]`),
resolution binds `endarray` from the *start* reference, producing
`(start, end) = ([0], [0])`, whereas `ListOffset` built from `[0, 2]` — which
the claim says it must match — resolves to `([0], [2])`.  The code resolves
`self.startarray` for both bindings while its own error message names
"endarray". -/
theorem listStartEnd_endarray_bound_from_start :
    listStartEndResolved "s" "e" [("s", ⟨[0], none⟩), ("e", ⟨[2], none⟩)]
      = .ok (⟨[0], none⟩, ⟨[0], none⟩) ∧
    listOffsetResolved "o" [("o", ⟨[0, 2], none⟩)]
      = .ok (⟨[0], none⟩, ⟨[2], none⟩) ∧
    listStartEndResolved "s" "e" [("s", ⟨[0], none⟩), ("e", ⟨[2], none⟩)]
      ≠ listOffsetResolved "o" [("o", ⟨[0, 2], none⟩)] := by
  refine ⟨rfl, rfl, by decide⟩

/-- **C9** — Masked rows materialize to null: for every resolved nullable node
(Primitive, ListStartEnd, UnionSparseOffset or Pointer) whose consulted array
carries a validity mask, and every row the mask flags invalid, `proxy` returns
`None`, regardless of the raw contents of any data array. -/
theorem masked_row_proxies_to_null (n : RNodeM) (index : Nat) (m : List Bool)
    (hm : (maskedArray n).mask = some m) (hidx : m[index]? = some true) :
    proxy n index = .ok .null := by
  simp [proxy, hm, hidx]

/-- Witness for `masked_row_proxies_to_null`: a masked Primitive whose raw
data holds `42` at row 0 still proxies to null. -/
theorem masked_row_proxies_to_null_witness :
    proxy (.primitive ⟨[42], some [true]⟩) 0 = .ok .null :=
  masked_row_proxies_to_null (.primitive ⟨[42], some [true]⟩) 0 [true] rfl rfl

/-- **C2** — code bug: resolving a schema in which a `Pointer`'s target
subtree contains that same `Pointer` (here node 0 is `Record {"ptr": node 1}`
and node 1 is `Pointer(indexarray "i", target = node 0)`) does terminate, but
raises instead of returning a resolved tree: the memo still holds the `None`
placeholder for the target when the inner pointer is rebuilt, so
`Pointer.__init__`'s `isinstance` assertion ("target must be an
ObjectArrayMapping") fails.  This happens whether resolution starts from the
record or from the pointer. -/
theorem pointer_cycle_resolved_raises :
    resolvedNode [.record [("ptr", 1)], .pointer "i" 0 false] [("i", ⟨[0], none⟩)] 10 0 []
      = .error .targetNotMapping ∧
    resolvedNode [.record [("ptr", 1)], .pointer "i" 0 false] [("i", ⟨[0], none⟩)] 10 1 []
      = .error .targetNotMapping :=
  ⟨rfl, rfl⟩

theorem lookup_mem {α : Type} {l : List (Nat × α)} {k : Nat} {v : α}
    (h : l.lookup k = some v) : (k, v) ∈ l := by
  induction l with
  | nil => simp [List.lookup] at h
  | cons p rest ih =>
      rw [List.lookup] at h
      split at h
      · next heq => simp at heq; cases h; simp [heq]
      · simp [ih h]

theorem assocSet_mem {α : Type} {m : List (Nat × α)} {k : Nat} {v : α} {p : Nat × α}
    (h : p ∈ assocSet m k v) : p = (k, v) ∨ p ∈ m := by
  induction m with
  | nil => simp [assocSet] at h; simp [h]
  | cons q rest ih =>
      rw [assocSet] at h
      split at h
      · rcases List.mem_cons.1 h with h1 | h1
        · exact Or.inl h1
        · exact Or.inr (List.mem_cons.2 (Or.inr h1))
      · rcases List.mem_cons.1 h with h1 | h1
        · exact Or.inr (List.mem_cons.2 (Or.inl h1))
        · rcases ih h1 with h2 | h2
          · exact Or.inl h2
          · exact Or.inr (List.mem_cons.2 (Or.inr h2))

theorem memoLB_set {n0 : Nat} {memo : PMemo} {k : Nat} {v : Option OAM}
    (hm : MemoLB n0 memo) (hv : ∀ t, v = some t → IdsLB n0 t) :
    MemoLB n0 (assocSet memo k v) := by
  intro kv hkv t ht
  rcases assocSet_mem hkv with h | h
  · exact hv t (by rw [h] at ht; exact ht)
  · exact hm kv h t ht

theorem memoLB_nil (n0 : Nat) : MemoLB n0 [] := by
  intro kv hkv
  simp at hkv

/-- Freshness of one `childStep`: the counter does not decrease, the memo
invariant is preserved, and any tree it hands back has identities `≥ n0`. -/
theorem childStep_spec (n0 : Nat) (x : OAM) (c : Nat) (memo : PMemo)
    (recur : PMemo → Option OAM × Nat × PMemo)
    (ihx : ∀ memo2, MemoLB n0 memo2 →
        c ≤ (recur memo2).2.1 ∧ MemoLB n0 (recur memo2).2.2 ∧ IdsLBO n0 (recur memo2).1)
    (hm : MemoLB n0 memo) :
    c ≤ (childStep x c memo recur).2.1 ∧ MemoLB n0 (childStep x c memo recur).2.2 ∧
    IdsLBO n0 (childStep x c memo recur).1 := by
  unfold childStep
  cases hl : memo.lookup x.nid with
  | some stored =>
      refine ⟨le_rfl, hm, ?_⟩
      cases stored with
      | none => trivial
      | some t => exact hm (x.nid, some t) (lookup_mem hl) t rfl
  | none =>
      have hm0 : MemoLB n0 (assocSet memo x.nid none) :=
        memoLB_set hm (fun t ht => by cases ht)
      have h := ihx (assocSet memo x.nid none) hm0
      rcases h3 : recur (assocSet memo x.nid none) with ⟨r, c2, m2⟩
      rw [h3] at h
      refine ⟨h.1, ?_, h.2.2⟩
      exact memoLB_set h.2.1 (fun t ht => by rw [ht] at h; exact h.2.2)

theorem mem_idsOfList {i : Nat} : ∀ {l : List OAM},
    i ∈ idsOfList l ↔ ∃ x ∈ l, i ∈ idsOf x := by
  intro l
  induction l with
  | nil => simp [idsOfList]
  | cons x rest ih => simp [idsOfList, List.mem_append, ih]

theorem mem_idsOfFields {i : Nat} : ∀ {fs : List (String × OAM)},
    i ∈ idsOfFields fs ↔ ∃ p ∈ fs, i ∈ idsOf p.2 := by
  intro fs
  induction fs with
  | nil => simp [idsOfFields]
  | cons p rest ih =>
      rcases p with ⟨f, x⟩
      simp [idsOfFields, List.mem_append, ih]

/-- Joint freshness of `projection` and its child loops, by strong induction
on size: starting from counter `c ≥ n0` and a memo whose stored trees have
identities `≥ n0`, the counter never decreases, the memo invariant persists,
and every produced tree has all identities `≥ n0` (they are fresh rebuilds). -/
theorem proj_fresh_aux : ∀ (k n0 : Nat) (req : List Nat),
    (∀ S c memo, sizeOf S < k → n0 ≤ c → MemoLB n0 memo →
        c ≤ (projection S req c memo).2.1 ∧ MemoLB n0 (projection S req c memo).2.2 ∧
        IdsLBO n0 (projection S req c memo).1) ∧
    (∀ l c memo, sizeOf l < k → n0 ≤ c → MemoLB n0 memo →
        c ≤ (projectionList l req c memo).2.1 ∧
        MemoLB n0 (projectionList l req c memo).2.2 ∧
        ∀ t ∈ (projectionList l req c memo).1, IdsLB n0 t) ∧
    (∀ fs c memo, sizeOf fs < k → n0 ≤ c → MemoLB n0 memo →
        c ≤ (projectionFields fs req c memo).2.1 ∧
        MemoLB n0 (projectionFields fs req c memo).2.2 ∧
        ∀ p ∈ (projectionFields fs req c memo).1, IdsLB n0 p.2) := by
  intro k
  induction k with
  | zero =>
      refine fun n0 req => ⟨?_, ?_, ?_⟩ <;> intro S c memo hS <;> omega
  | succ k ih =>
      intro n0 req
      obtain ⟨ih1, ih2, ih3⟩ := ih n0 req
      have single : ∀ (ct : OAM) (c : Nat) (memo : PMemo), sizeOf ct < k → n0 ≤ c →
          MemoLB n0 memo →
          c ≤ (childStep ct c memo (fun m0 => projection ct req c m0)).2.1 ∧
          MemoLB n0 (childStep ct c memo (fun m0 => projection ct req c m0)).2.2 ∧
          IdsLBO n0 (childStep ct c memo (fun m0 => projection ct req c m0)).1 := by
        intro ct c memo hsz hc hm
        exact childStep_spec n0 ct c memo _ (fun memo2 hm2 => ih1 ct c memo2 hsz hc hm2) hm
      refine ⟨?_, ?_, ?_⟩
      · intro S c memo hS hc hm
        cases S with
        | primitive n a m =>
            rw [projection]
            split
            · dsimp only [IdsLBO]
              refine ⟨by omega, hm, ?_⟩
              intro i hi
              simp [idsOf, IdsLB] at hi
              omega
            · exact ⟨le_rfl, hm, trivial⟩
        | listCount n arr ct m =>
            have hsz : sizeOf ct < k := by simp at hS; omega
            obtain ⟨hs1, hs2, hs3⟩ := single ct c memo hsz hc hm
            rw [projection]
            split
            · rcases h3 : childStep ct c memo (fun m0 => projection ct req c m0) with ⟨o, c1, m1⟩
              rw [h3] at hs1 hs2 hs3
              dsimp only at hs1 hs2 hs3 ⊢
              cases o with
              | some cc =>
                  dsimp only [IdsLBO] at hs3 ⊢
                  refine ⟨by omega, hs2, ?_⟩
                  intro i hi
                  simp [idsOf, IdsLB] at hi ⊢
                  rcases hi with hi | hi
                  · omega
                  · exact hs3 i hi
              | none =>
                  dsimp only [IdsLBO] at hs3 ⊢
                  refine ⟨by omega, hs2, ?_⟩
                  intro i hi
                  simp [idsOf, IdsLB] at hi
                  omega
            · exact ⟨le_rfl, hm, trivial⟩
        | listOffset n arr ct m =>
            have hsz : sizeOf ct < k := by simp at hS; omega
            obtain ⟨hs1, hs2, hs3⟩ := single ct c memo hsz hc hm
            rw [projection]
            split
            · rcases h3 : childStep ct c memo (fun m0 => projection ct req c m0) with ⟨o, c1, m1⟩
              rw [h3] at hs1 hs2 hs3
              dsimp only at hs1 hs2 hs3 ⊢
              cases o with
              | some cc =>
                  dsimp only [IdsLBO] at hs3 ⊢
                  refine ⟨by omega, hs2, ?_⟩
                  intro i hi
                  simp [idsOf, IdsLB] at hi ⊢
                  rcases hi with hi | hi
                  · omega
                  · exact hs3 i hi
              | none =>
                  dsimp only [IdsLBO] at hs3 ⊢
                  refine ⟨by omega, hs2, ?_⟩
                  intro i hi
                  simp [idsOf, IdsLB] at hi
                  omega
            · exact ⟨le_rfl, hm, trivial⟩
        | listStartEnd n arr1 arr2 ct m =>
            have hsz : sizeOf ct < k := by simp at hS; omega
            obtain ⟨hs1, hs2, hs3⟩ := single ct c memo hsz hc hm
            rw [projection]
            split
            · rcases h3 : childStep ct c memo (fun m0 => projection ct req c m0) with ⟨o, c1, m1⟩
              rw [h3] at hs1 hs2 hs3
              dsimp only at hs1 hs2 hs3 ⊢
              cases o with
              | some cc =>
                  dsimp only [IdsLBO] at hs3 ⊢
                  refine ⟨by omega, hs2, ?_⟩
                  intro i hi
                  simp [idsOf, IdsLB] at hi ⊢
                  rcases hi with hi | hi
                  · omega
                  · exact hs3 i hi
              | none =>
                  dsimp only [IdsLBO] at hs3 ⊢
                  refine ⟨by omega, hs2, ?_⟩
                  intro i hi
                  simp [idsOf, IdsLB] at hi
                  omega
            · exact ⟨le_rfl, hm, trivial⟩
        | record n cs =>
            have hsz : sizeOf cs < k := by simp at hS; omega
            obtain ⟨hs1, hs2, hs3⟩ := ih3 cs c memo hsz hc hm
            rw [projection]
            split
            · rcases h3 : projectionFields cs req c memo with ⟨fs1, c1, m1⟩
              rw [h3] at hs1 hs2 hs3
              dsimp only at hs1 hs2 hs3 ⊢
              cases fs1 with
              | nil => exact ⟨hs1, hs2, trivial⟩
              | cons p ps =>
                  simp only [List.isEmpty_cons, Bool.false_eq_true, if_false]
                  dsimp only [IdsLBO]
                  refine ⟨by omega, hs2, ?_⟩
                  intro i hi
                  simp only [idsOf, IdsLB, List.mem_cons] at hi
                  rcases hi with hi | hi
                  · omega
                  · rcases mem_idsOfFields.1 hi with ⟨q, hq, hq2⟩
                    exact hs3 q hq i hq2
            · exact ⟨le_rfl, hm, trivial⟩
        | tupleOf n cs =>
            have hsz : sizeOf cs < k := by simp at hS; omega
            obtain ⟨hs1, hs2, hs3⟩ := ih2 cs c memo hsz hc hm
            rw [projection]
            split
            · rcases h3 : projectionList cs req c memo with ⟨fs1, c1, m1⟩
              rw [h3] at hs1 hs2 hs3
              dsimp only at hs1 hs2 hs3 ⊢
              cases fs1 with
              | nil => exact ⟨hs1, hs2, trivial⟩
              | cons p ps =>
                  simp only [List.isEmpty_cons, Bool.false_eq_true, if_false]
                  dsimp only [IdsLBO]
                  refine ⟨by omega, hs2, ?_⟩
                  intro i hi
                  simp only [idsOf, IdsLB, List.mem_cons] at hi
                  rcases hi with hi | hi
                  · omega
                  · rcases mem_idsOfList.1 hi with ⟨q, hq, hq2⟩
                    exact hs3 q hq i hq2
            · exact ⟨le_rfl, hm, trivial⟩
        | unionSparse n arr cs m =>
            have hsz : sizeOf cs < k := by simp at hS; omega
            obtain ⟨hs1, hs2, hs3⟩ := ih2 cs c memo hsz hc hm
            rw [projection]
            split
            · rcases h3 : projectionList cs req c memo with ⟨fs1, c1, m1⟩
              rw [h3] at hs1 hs2 hs3
              dsimp only at hs1 hs2 hs3 ⊢
              cases fs1 with
              | nil => exact ⟨hs1, hs2, trivial⟩
              | cons p ps =>
                  simp only [List.isEmpty_cons, Bool.false_eq_true, if_false]
                  dsimp only [IdsLBO]
                  refine ⟨by omega, hs2, ?_⟩
                  intro i hi
                  simp only [idsOf, IdsLB, List.mem_cons] at hi
                  rcases hi with hi | hi
                  · omega
                  · rcases mem_idsOfList.1 hi with ⟨q, hq, hq2⟩
                    exact hs3 q hq i hq2
            · exact ⟨le_rfl, hm, trivial⟩
        | unionSparseOffset n arr1 arr2 cs m =>
            have hsz : sizeOf cs < k := by simp at hS; omega
            obtain ⟨hs1, hs2, hs3⟩ := ih2 cs c memo hsz hc hm
            rw [projection]
            split
            · rcases h3 : projectionList cs req c memo with ⟨fs1, c1, m1⟩
              rw [h3] at hs1 hs2 hs3
              dsimp only at hs1 hs2 hs3 ⊢
              cases fs1 with
              | nil => exact ⟨hs1, hs2, trivial⟩
              | cons p ps =>
                  simp only [List.isEmpty_cons, Bool.false_eq_true, if_false]
                  dsimp only [IdsLBO]
                  refine ⟨by omega, hs2, ?_⟩
                  intro i hi
                  simp only [idsOf, IdsLB, List.mem_cons] at hi
                  rcases hi with hi | hi
                  · omega
                  · rcases mem_idsOfList.1 hi with ⟨q, hq, hq2⟩
                    exact hs3 q hq i hq2
            · exact ⟨le_rfl, hm, trivial⟩
        | pointer n arr t m =>
            have hsz : sizeOf t < k := by simp at hS; omega
            obtain ⟨hs1, hs2, hs3⟩ := single t c memo hsz hc hm
            rw [projection]
            split
            · rcases h3 : childStep t c memo (fun m0 => projection t req c m0) with ⟨o, c1, m1⟩
              rw [h3] at hs1 hs2 hs3
              dsimp only at hs1 hs2 hs3 ⊢
              cases o with
              | some cc =>
                  dsimp only [IdsLBO] at hs3 ⊢
                  refine ⟨by omega, hs2, ?_⟩
                  intro i hi
                  simp [idsOf, IdsLB] at hi ⊢
                  rcases hi with hi | hi
                  · omega
                  · exact hs3 i hi
              | none =>
                  dsimp only [IdsLBO] at hs3 ⊢
                  refine ⟨by omega, hs2, ?_⟩
                  intro i hi
                  simp [idsOf, IdsLB] at hi
                  omega
            · exact ⟨le_rfl, hm, trivial⟩
      · intro l c memo hl hc hm
        cases l with
        | nil =>
            rw [projectionList]
            exact ⟨le_rfl, hm, by simp⟩
        | cons x rest =>
            have hszx : sizeOf x < k := by simp at hl; omega
            have hszr : sizeOf rest < k := by simp at hl; omega
            obtain ⟨hs1, hs2, hs3⟩ := single x c memo hszx hc hm
            rw [projectionList]
            rcases h3 : childStep x c memo (fun m0 => projection x req c m0) with ⟨o, c1, m1⟩
            rw [h3] at hs1 hs2 hs3
            dsimp only at hs1 hs2 hs3 ⊢
            obtain ⟨hr1, hr2, hr3⟩ := ih2 rest c1 m1 hszr (by omega) hs2
            rcases h4 : projectionList rest req c1 m1 with ⟨l2, c2, m2⟩
            rw [h4] at hr1 hr2 hr3
            dsimp only at hr1 hr2 hr3 ⊢
            cases o with
            | some content =>
                dsimp only [IdsLBO] at hs3 ⊢
                refine ⟨by omega, hr2, ?_⟩
                intro t ht
                simp at ht
                rcases ht with ht | ht
                · rw [ht]; exact hs3
                · exact hr3 t ht
            | none =>
                dsimp only
                exact ⟨by omega, hr2, hr3⟩
      · intro fs c memo hfs hc hm
        cases fs with
        | nil =>
            rw [projectionFields]
            exact ⟨le_rfl, hm, by simp⟩
        | cons p rest =>
            rcases p with ⟨f, x⟩
            have hszx : sizeOf x < k := by simp at hfs; omega
            have hszr : sizeOf rest < k := by simp at hfs; omega
            obtain ⟨hs1, hs2, hs3⟩ := single x c memo hszx hc hm
            rw [projectionFields]
            rcases h3 : childStep x c memo (fun m0 => projection x req c m0) with ⟨o, c1, m1⟩
            rw [h3] at hs1 hs2 hs3
            dsimp only at hs1 hs2 hs3 ⊢
            obtain ⟨hr1, hr2, hr3⟩ := ih3 rest c1 m1 hszr (by omega) hs2
            rcases h4 : projectionFields rest req c1 m1 with ⟨l2, c2, m2⟩
            rw [h4] at hr1 hr2 hr3
            dsimp only at hr1 hr2 hr3 ⊢
            cases o with
            | some content =>
                dsimp only [IdsLBO] at hs3 ⊢
                refine ⟨by omega, hr2, ?_⟩
                intro q hq
                simp at hq
                rcases hq with hq | hq
                · rw [hq]; exact hs3
                · exact hr3 q hq
            | none =>
                dsimp only
                exact ⟨by omega, hr2, hr3⟩
/-- If no identity of the tree is in `others`, `hasany` is false, whatever the
visited-set holds. -/
theorem hasany_false_aux : ∀ (k : Nat) (others : List Nat),
    (∀ S memo, sizeOf S < k → (∀ i ∈ idsOf S, i ∉ others) → hasany S others memo = false) ∧
    (∀ l memo, sizeOf l < k → (∀ i ∈ idsOfList l, i ∉ others) →
        hasanyFirst l others memo = false) ∧
    (∀ fs memo, sizeOf fs < k → (∀ i ∈ idsOfFields fs, i ∉ others) →
        hasanyFirstF fs others memo = false) := by
  intro k
  induction k with
  | zero => refine fun others => ⟨?_, ?_, ?_⟩ <;> intro S memo hS <;> omega
  | succ k ih =>
      intro others
      obtain ⟨ih1, ih2, ih3⟩ := ih others
      refine ⟨?_, ?_, ?_⟩
      · intro S memo hS hids
        cases S with
        | primitive n a m =>
            simp only [hasany]
            simpa using hids n (by simp [idsOf])
        | listCount n arr ct m =>
            simp only [hasany, Bool.or_eq_false_iff]
            constructor
            · simpa using hids n (by simp [idsOf])
            · split
              · rfl
              · exact ih1 ct _ (by simp at hS; omega)
                  (fun i hi => hids i (by simp [idsOf, hi]))
        | listOffset n arr ct m =>
            simp only [hasany, Bool.or_eq_false_iff]
            constructor
            · simpa using hids n (by simp [idsOf])
            · split
              · rfl
              · exact ih1 ct _ (by simp at hS; omega)
                  (fun i hi => hids i (by simp [idsOf, hi]))
        | listStartEnd n arr1 arr2 ct m =>
            simp only [hasany, Bool.or_eq_false_iff]
            constructor
            · simpa using hids n (by simp [idsOf])
            · split
              · rfl
              · exact ih1 ct _ (by simp at hS; omega)
                  (fun i hi => hids i (by simp [idsOf, hi]))
        | record n cs =>
            simp only [hasany, Bool.or_eq_false_iff]
            constructor
            · simpa using hids n (by simp [idsOf])
            · exact ih3 cs _ (by simp at hS; omega)
                (fun i hi => hids i (by simp [idsOf]; exact Or.inr hi))
        | tupleOf n cs =>
            simp only [hasany, Bool.or_eq_false_iff]
            constructor
            · simpa using hids n (by simp [idsOf])
            · exact ih2 cs _ (by simp at hS; omega)
                (fun i hi => hids i (by simp [idsOf]; exact Or.inr hi))
        | unionSparse n arr cs m =>
            simp only [hasany, Bool.or_eq_false_iff]
            constructor
            · simpa using hids n (by simp [idsOf])
            · exact ih2 cs _ (by simp at hS; omega)
                (fun i hi => hids i (by simp [idsOf]; exact Or.inr hi))
        | unionSparseOffset n arr1 arr2 cs m =>
            simp only [hasany, Bool.or_eq_false_iff]
            constructor
            · simpa using hids n (by simp [idsOf])
            · exact ih2 cs _ (by simp at hS; omega)
                (fun i hi => hids i (by simp [idsOf]; exact Or.inr hi))
        | pointer n arr t m =>
            simp only [hasany, Bool.or_eq_false_iff]
            constructor
            · simpa using hids n (by simp [idsOf])
            · split
              · rfl
              · exact ih1 t _ (by simp at hS; omega)
                  (fun i hi => hids i (by simp [idsOf, hi]))

      · intro l memo hl hids
        cases l with
        | nil => rfl
        | cons x rest =>
            rw [hasanyFirst]
            split
            · exact ih2 rest _ (by simp at hl; omega)
                (fun i hi => hids i (by simp [idsOfList]; exact Or.inr hi))
            · exact ih1 x _ (by simp at hl; omega)
                (fun i hi => hids i (by simp [idsOfList]; exact Or.inl hi))
      · intro fs memo hfs hids
        cases fs with
        | nil => rfl
        | cons p rest =>
            rcases p with ⟨f, x⟩
            rw [hasanyFirstF]
            split
            · exact ih3 rest _ (by simp at hfs; omega)
                (fun i hi => hids i (by simp [idsOfFields]; exact Or.inr hi))
            · exact ih1 x _ (by simp at hfs; omega)
                (fun i hi => hids i (by simp [idsOfFields]; exact Or.inl hi))

theorem hasany_eq_false {S : OAM} {others : List Nat} (memo : List Nat)
    (hids : ∀ i ∈ idsOf S, i ∉ others) : hasany S others memo = false :=
  (hasany_false_aux (sizeOf S + 1) others).1 S memo (by omega) hids

/-- Every variant of `projection` guards on `self.hasany(required)` and prunes
to `None` (leaving counter and memo untouched) when it is false. -/
theorem projection_none_of_hasany_false {S : OAM} {req : List Nat} (c : Nat) (memo : PMemo)
    (h : hasany S req [] = false) : projection S req c memo = (none, c, memo) := by
  cases S <;> (rw [projection]; rw [if_neg (by rw [h]; exact Bool.false_ne_true)])

/-- **C6** — code bug in `Record.hasany` (arrowed/schema.py lines 665-674, the
unconditional `return x.hasany(others, _memo)` inside the child loop): for the
schema `Record (id 0) {a: Primitive (id 1), b: Primitive (id 2)}` and required
set `{id 2}`, `hasany` inspects only the first field and answers false, so
`projection` returns null even though node 2 — a descendant, in second child
position — is identity-present in the required set; with required set `{id 1}`
(first position) it answers true.  This falsifies both directions of the
claim: null is returned although a descendant is required, and the required
node 2 is pruned. -/
theorem record_projection_prunes_required_second_field :
    hasany (.record 0 [("a", .primitive 1 "a" false), ("b", .primitive 2 "b" false)])
        [2] [] = false ∧
    projection (.record 0 [("a", .primitive 1 "a" false), ("b", .primitive 2 "b" false)])
        [2] 10 [] = (none, 10, []) ∧
    2 ∈ idsOf (.record 0 [("a", .primitive 1 "a" false), ("b", .primitive 2 "b" false)]) ∧
    hasany (.record 0 [("a", .primitive 1 "a" false), ("b", .primitive 2 "b" false)])
        [1] [] = true :=
  ⟨rfl, rfl, by decide, rfl⟩

/-- **C7**, counterexample — projection is not idempotent: for the schema
`Primitive (id 0)` and required set `{id 0}`, the first projection rebuilds the
node as a fresh object (id 1 here), and re-projecting that result with the same
identity-keyed required set yields null, not the first projection. -/
theorem projection_not_idempotent_cex :
    (projection (.primitive 0 "x" false) [0] 1 []).1 = some (.primitive 1 "x" false) ∧
    (projection (.primitive 1 "x" false) [0] 2 []).1 = none ∧
    (projection (.primitive 1 "x" false) [0] 2 []).1
      ≠ (projection (.primitive 0 "x" false) [0] 1 []).1 := by
  refine ⟨rfl, rfl, ?_⟩
  intro h
  rw [show (projection (.primitive 1 "x" false) [0] 2 []).1 = none from rfl,
    show (projection (.primitive 0 "x" false) [0] 1 []).1
      = some (.primitive 1 "x" false) from rfl] at h
  exact Option.noConfusion h

/-- **C7**, amended — projection rebuilds every retained node as a fresh
identity, so it is never idempotent on a successful projection: whenever the
identity allocator starts past every id in the required set and
`project(S, R)` is non-null, re-projecting its result with the same `R` yields
null (in particular `project(project(S,R),R) ≠ project(S,R)` there). -/
theorem projection_reproject_null (S : OAM) (req : List Nat) (c : Nat) (T : OAM)
    (c2 : Nat) (memo2 : PMemo) (hreq : ∀ r ∈ req, r < c)
    (hp : projection S req c [] = (some T, c2, memo2)) :
    ∀ c3 memo3, projection T req c3 memo3 = (none, c3, memo3) ∧
      (projection T req c3 memo3).1 ≠ (projection S req c []).1 := by
  have h := (proj_fresh_aux (sizeOf S + 1) c req).1 S c [] (by omega) le_rfl (memoLB_nil c)
  rw [hp] at h
  have hT : IdsLB c T := h.2.2
  have hno : ∀ i ∈ idsOf T, i ∉ req := by
    intro i hi hm
    have h1 := hreq i hm
    have h2 := hT i hi
    omega
  intro c3 memo3
  have hnone := projection_none_of_hasany_false c3 memo3 (hasany_eq_false [] hno)
  refine ⟨hnone, ?_⟩
  rw [hnone, hp]
  simp

/-- Witness for `projection_reproject_null` on `Primitive (id 0)`, `R = {0}`,
allocator starting at 1. -/
theorem projection_reproject_null_witness :
    projection (.primitive 1 "x" false) [0] 7 [] = (none, 7, []) ∧
    (projection (.primitive 1 "x" false) [0] 7 []).1
      ≠ (projection (.primitive 0 "x" false) [0] 1 []).1 :=
  projection_reproject_null (.primitive 0 "x" false) [0] 1 (.primitive 1 "x" false) 2 []
    (by decide) rfl 7 []

end Arrowed

namespace Oamap

/-- **C8** — List-view access raises iff a scalar index is out of range: on any
list sequence view of nonnegative length, `v[start:stop]` clamps both bounds
into `[0, len(v)]` (keeping in-range bounds as given, flooring the stop at the
clamped start) and returns a sub-view without raising, for all integers; scalar
`v[i]` raises `IndexError` exactly when `i`, after normalizing a negative index
by adding `len(v)`, falls outside `[0, len(v))`, and otherwise materializes the
element at position `_start + _step * normalindex`. -/
theorem listProxy_getitem_spec {α : Type} (p : ListProxyS) (content : Int → α)
    (hlen : 0 ≤ lplen p) :
    (∀ start stop : Int, ∃ cs ct : Int,
        lpGetSlice p (some start) (some stop) none
          = .ok ⟨p.start + p.step * cs, p.start + p.step * ct, p.step⟩ ∧
        0 ≤ cs ∧ cs ≤ lplen p ∧ cs ≤ ct ∧ ct ≤ lplen p ∧
        (0 ≤ start → start ≤ lplen p → cs = start) ∧
        (0 ≤ stop → stop ≤ lplen p → start ≤ stop → ct = stop)) ∧
    (∀ index : Int,
        (∃ err, lpGetScalar p content index = .error err) ↔
          ¬ (0 ≤ (if 0 ≤ index then index else index + lplen p) ∧
              (if 0 ≤ index then index else index + lplen p) < lplen p)) ∧
    (∀ index : Int,
        0 ≤ (if 0 ≤ index then index else index + lplen p) →
        (if 0 ≤ index then index else index + lplen p) < lplen p →
        lpGetScalar p content index
          = .ok (content (p.start + p.step * (if 0 ≤ index then index else index + lplen p)))) := by
  refine ⟨?_, ?_, ?_⟩
  · intro start stop
    refine ⟨min (lplen p) (max 0 start),
      max (min (lplen p) (max 0 stop)) (min (lplen p) (max 0 start)), ?_, ?_, ?_, ?_, ?_, ?_, ?_⟩
    · show lpGetSlice p (some start) (some stop) none = _
      simp only [lpGetSlice, Option.getD_some, Option.getD_none]
      rw [if_neg (by omega : ¬ (1 : Int) = 0)]
      have hstop : (if min (lplen p) (max 0 stop) < min (lplen p) (max 0 start)
          then min (lplen p) (max 0 start) else min (lplen p) (max 0 stop))
          = max (min (lplen p) (max 0 stop)) (min (lplen p) (max 0 start)) := by
        split <;> omega
      rw [hstop, mul_one]
    · omega
    · omega
    · omega
    · omega
    · intro h1 h2; omega
    · intro h1 h2 h3; omega
  · intro index
    constructor
    · rintro ⟨err, herr⟩ hc
      unfold lpGetScalar at herr
      rw [if_pos hc] at herr
      exact Except.noConfusion herr
    · intro hc
      refine ⟨"index is out of bounds for size", ?_⟩
      unfold lpGetScalar
      rw [if_neg hc]
  · intro index h1 h2
    unfold lpGetScalar
    rw [if_pos ⟨h1, h2⟩]

/-- Witness for `listProxy_getitem_spec` on the view `(start 0, stop 3, step 1)`:
the negative index `-1` normalizes to 2 and materializes position `0 + 1 * 2`. -/
theorem listProxy_getitem_spec_witness :
    lpGetScalar ⟨0, 3, 1⟩ (fun x : Int => x) (-1) = .ok 2 := by
  have h := (listProxy_getitem_spec ⟨0, 3, 1⟩ (fun x : Int => x)
    (by decide)).2.2 (-1) (by decide) (by decide)
  rw [h]
  decide

end Oamap

namespace Plur

/-! ### Conformance and classification lemmas -/

theorem canon_int_elim {v : Value} (h : canon v .int = true) : v = .prim (toIntD v) := by
  cases v <;> simp [canon, toIntD] at h ⊢

theorem canon_list_elim {v : Value} {of : PType} (h : canon v (.list of) = true) :
    v = .list (unlist v) ∧ canonItems (unlist v) of = true := by
  cases v <;> simp [canon, unlist] at h ⊢ <;> exact h

theorem canon_record_elim {v : Value} {tfs : List (String × PType)}
    (h : canon v (.record tfs) = true) :
    v = .record (fieldsOf v) ∧ canonFields (fieldsOf v) tfs = true := by
  cases v <;> simp [canon, fieldsOf] at h ⊢ <;> exact h

theorem canonItems_mem {xs : List Value} {of : PType} (h : canonItems xs of = true) :
    ∀ x ∈ xs, canon x of = true := by
  induction xs with
  | nil => intro x hx; simp at hx
  | cons y ys ih =>
      rw [canonItems, Bool.and_eq_true] at h
      intro x hx
      rcases List.mem_cons.1 hx with hx | hx
      · rw [hx]; exact h.1
      · exact ih h.2 x hx

theorem chooseTag_spec {v : Value} : ∀ {of : List PType} {t : Nat},
    chooseTag v of = some t → t < of.length ∧ canon v (of.getD t .int) = true := by
  intro of
  induction of with
  | nil => intro t h; simp [chooseTag] at h
  | cons p ps ih =>
      intro t h
      rw [chooseTag] at h
      split at h
      · cases h
        refine ⟨by simp, by simpa [List.getD]⟩
      · cases ht2 : chooseTag v ps with
        | none => rw [ht2] at h; simp at h
        | some t2 =>
            rw [ht2] at h
            simp at h
            obtain ⟨h1, h2⟩ := ih ht2
            rw [← h]
            exact ⟨by simpa using h1, by simpa [List.getD] using h2⟩

theorem canon_union_elim {v : Value} {of : List PType} (h : canon v (.union of) = true) :
    ∃ t, chooseTag v of = some t ∧ t < of.length ∧ canon v (of.getD t .int) = true := by
  rw [canon] at h
  cases ht : chooseTag v of with
  | none => rw [ht] at h; simp at h
  | some t =>
      obtain ⟨h1, h2⟩ := chooseTag_spec ht
      exact ⟨t, rfl, h1, h2⟩

theorem lookup_mem_str {α : Type} {l : List (String × α)} {k : String} {v : α}
    (h : l.lookup k = some v) : (k, v) ∈ l := by
  induction l with
  | nil => simp [List.lookup] at h
  | cons p rest ih =>
      rw [List.lookup] at h
      split at h
      · next heq => simp at heq; cases h; simp [heq]
      · simp [ih h]

theorem lookup_cons_ne {α : Type} {g k : String} {x : α} {rest : List (String × α)}
    (h : k ≠ g) : ((g, x) :: rest).lookup k = rest.lookup k := by
  have hb : (k == g) = false := beq_eq_false_iff_ne.mpr h
  rw [List.lookup, hb]

theorem nodupKeys_lookup {tfs : List (String × PType)}
    (hnd : nodupKeys (tfs.map Prod.fst) = true) :
    ∀ p ∈ tfs, tfs.lookup p.1 = some p.2 := by
  induction tfs with
  | nil => intro p hp; simp at hp
  | cons q rest ih =>
      rcases q with ⟨g, t⟩
      rw [List.map_cons, nodupKeys, Bool.and_eq_true] at hnd
      intro p hp
      rcases List.mem_cons.1 hp with hp | hp
      · rw [hp]
        rw [List.lookup]
        simp
      · have hne : p.1 ≠ g := by
          intro he
          have : g ∈ rest.map Prod.fst := by
            rw [← he]
            exact List.mem_map.2 ⟨p, hp, rfl⟩
          simp [this] at hnd
        rw [lookup_cons_ne hne]
        exact ih hnd.2 p hp

theorem canonFields_lookup : ∀ {fs : List (String × Value)} {tfs : List (String × PType)},
    canonFields fs tfs = true → ∀ {f : String} {ft : PType}, tfs.lookup f = some ft →
    ∃ x, fs.lookup f = some x ∧ canon x ft = true := by
  intro fs
  induction fs with
  | nil =>
      intro tfs h f ft hl
      cases tfs with
      | nil => simp [List.lookup] at hl
      | cons q ts => simp [canonFields] at h
  | cons p rest ih =>
      intro tfs h f ft hl
      cases tfs with
      | nil => rcases p with ⟨a, b⟩; simp [canonFields] at h
      | cons q ts =>
          rcases p with ⟨a, x⟩
          rcases q with ⟨g, t⟩
          rw [canonFields, Bool.and_eq_true, Bool.and_eq_true] at h
          obtain ⟨⟨hfg, hcx⟩, hrest⟩ := h
          have hag : a = g := by simpa using hfg
          by_cases hf : f = g
          · rw [hf] at hl ⊢
            rw [List.lookup] at hl
            simp at hl
            refine ⟨x, ?_, ?_⟩
            · rw [hag, List.lookup]
              simp
            · rw [← hl]
              exact hcx
          · rw [lookup_cons_ne hf] at hl
            rw [hag, lookup_cons_ne hf]
            exact ih hrest hl

theorem canonFields_keys : ∀ {fs : List (String × Value)} {tfs : List (String × PType)},
    canonFields fs tfs = true → fs.map Prod.fst = tfs.map Prod.fst := by
  intro fs
  induction fs with
  | nil =>
      intro tfs h
      cases tfs with
      | nil => rfl
      | cons q ts => simp [canonFields] at h
  | cons p rest ih =>
      intro tfs h
      cases tfs with
      | nil => rcases p with ⟨a, b⟩; simp [canonFields] at h
      | cons q ts =>
          rcases p with ⟨a, x⟩
          rcases q with ⟨g, t⟩
          rw [canonFields, Bool.and_eq_true, Bool.and_eq_true] at h
          obtain ⟨⟨hfg, hcx⟩, hrest⟩ := h
          have hag : a = g := by simpa using hfg
          simp only [List.map_cons]
          rw [hag, ih hrest]

theorem canonFields_recon : ∀ {fs : List (String × Value)} {tfs : List (String × PType)},
    canonFields fs tfs = true → nodupKeys (tfs.map Prod.fst) = true →
    tfs.map (fun p => (p.1, getFieldD p.1 (.record fs))) = fs := by
  intro fs
  induction fs with
  | nil =>
      intro tfs h _
      cases tfs with
      | nil => rfl
      | cons q ts => simp [canonFields] at h
  | cons p rest ih =>
      intro tfs h hnd
      cases tfs with
      | nil => rcases p with ⟨a, b⟩; simp [canonFields] at h
      | cons q ts =>
          rcases p with ⟨a, x⟩
          rcases q with ⟨g, t⟩
          rw [canonFields, Bool.and_eq_true, Bool.and_eq_true] at h
          obtain ⟨⟨hfg, hcx⟩, hrest⟩ := h
          have hag : a = g := by simpa using hfg
          rw [List.map_cons, nodupKeys, Bool.and_eq_true] at hnd
          have hhead : getFieldD g (.record ((a, x) :: rest)) = x := by
            rw [getFieldD]
            simp only [fieldsOf]
            rw [hag, List.lookup]
            simp
          have htail : ∀ p2 ∈ ts, getFieldD p2.1 (Value.record ((a, x) :: rest))
              = getFieldD p2.1 (Value.record rest) := by
            intro p2 hp2
            have hne : p2.1 ≠ a := by
              intro he
              have hmem : p2.1 ∈ ts.map Prod.fst := List.mem_map.2 ⟨p2, hp2, rfl⟩
              rw [he, hag] at hmem
              simp [hmem] at hnd
            rw [getFieldD, getFieldD]
            simp only [fieldsOf]
            rw [lookup_cons_ne hne]
          simp only [List.map_cons, List.cons.injEq]
          refine ⟨?_, ?_⟩
          · show (g, getFieldD g (Value.record ((a, x) :: rest))) = (a, x)
            rw [hhead, hag]
          · rw [List.map_congr_left (fun p2 hp2 => by
              show (p2.1, getFieldD p2.1 (Value.record ((a, x) :: rest)))
                = (p2.1, getFieldD p2.1 (Value.record rest))
              rw [htail p2 hp2])]
            exact ih hrest hnd.2

theorem canon_field {v : Value} {tfs : List (String × PType)} {f : String} {ft : PType}
    (hc : canon v (.record tfs) = true) (hl : tfs.lookup f = some ft) :
    (fieldsOf v).lookup f = some (getFieldD f v) ∧ canon (getFieldD f v) ft = true := by
  obtain ⟨hv, hcf⟩ := canon_record_elim hc
  obtain ⟨x, hx, hcx⟩ := canonFields_lookup hcf hl
  rw [getFieldD, hx]
  exact ⟨rfl, hcx⟩

theorem wfList_mem {of : List PType} (h : wfList of = true) : ∀ t ∈ of, wf t = true := by
  induction of with
  | nil => intro t ht; simp at ht
  | cons p ps ih =>
      rw [wfList, Bool.and_eq_true] at h
      intro t ht
      rcases List.mem_cons.1 ht with ht | ht
      · rw [ht]; exact h.1
      · exact ih h.2 t ht

theorem wfList_getD {of : List PType} {t : Nat} (h : wfList of = true) (ht : t < of.length) :
    wf (of.getD t .int) = true := by
  have : of.getD t .int ∈ of := by
    rw [List.getD_eq_getElem _ _ ht]
    exact List.getElem_mem ht
  exact wfList_mem h _ this

theorem wfFields_mem {tfs : List (String × PType)} (h : wfFields tfs = true) :
    ∀ p ∈ tfs, wf p.2 = true := by
  induction tfs with
  | nil => intro p hp; simp at hp
  | cons q ps ih =>
      rcases q with ⟨g, t⟩
      rw [wfFields, Bool.and_eq_true] at h
      intro p hp
      rcases List.mem_cons.1 hp with hp | hp
      · rw [hp]; exact h.1
      · exact ih h.2 p hp

/-! ### Arithmetic over columns: cumulative sums, flattened positions,
filtered subsequences -/

theorem intSum_ofNat : ∀ (l : List Nat), (l.map (fun n => Int.ofNat n)).sum = Int.ofNat l.sum
  | [] => rfl
  | n :: ns => by
      simp only [List.map_cons, List.sum_cons, intSum_ofNat ns]
      exact (Int.ofNat_add n ns.sum).symm

theorem map_lenOf_eq (vs : List Value) : vs.map lenOf = (vs.map lenN).map (fun n => Int.ofNat n) := by
  rw [List.map_map]
  rfl

theorem cumsum_get? : ∀ (l : List Int) (a : Int) (i : Nat), i < l.length →
    (Arrowed.cumsum a l).get? i = some (a + (l.take (i + 1)).sum)
  | [], _, i, h => by simp at h
  | c :: cs, a, 0, _ => by simp [Arrowed.cumsum]
  | c :: cs, a, i + 1, h => by
      have ih := cumsum_get? cs (a + c) i (by simpa using h)
      simp only [Arrowed.cumsum, List.get?_cons_succ, ih, List.take_succ_cons, List.sum_cons]
      congr 1
      ring

theorem preLen_zero (vs : List Value) : preLen vs 0 = 0 := rfl

theorem preLen_succ {vs : List Value} {i : Nat} (h : i < vs.length) :
    preLen vs (i + 1) = preLen vs i + lenN (vs.getD i (.prim 0)) := by
  unfold preLen
  rw [List.take_succ, List.getElem?_eq_getElem h, List.getD_eq_getElem vs _ h]
  simp only [Option.toList_some, List.map_append, List.map_cons, List.map_nil,
    List.sum_append, List.sum_cons, List.sum_nil]
  omega

theorem preLen_mono {vs : List Value} {i j : Nat} (hij : i ≤ j) :
    preLen vs i ≤ preLen vs j := by
  unfold preLen
  have h1 : (vs.take j).take i = vs.take i := by
    rw [List.take_take]
    congr 1
    omega
  conv_rhs => rw [← List.take_append_drop i (vs.take j)]
  rw [h1, List.map_append, List.sum_append]
  omega

theorem cumsum_take_get? {vs : List Value} {i : Nat} (h : i < vs.length) :
    (Arrowed.cumsum 0 (vs.map lenOf)).get? i = some (Int.ofNat (preLen vs (i + 1))) := by
  rw [cumsum_get? _ _ i (by simpa using h)]
  rw [map_lenOf_eq, ← List.map_take, intSum_ofNat]
  congr 1
  · unfold preLen
    rw [List.map_take]
    omega

theorem flatLen_eq : ∀ (vs : List Value), (vs.flatMap unlist).length = preLen vs vs.length
  | [] => rfl
  | v :: vs => by
      simp only [List.flatMap_cons, List.length_append, flatLen_eq vs]
      unfold preLen
      simp only [List.length_cons, List.take_succ_cons, List.map_cons, List.sum_cons,
        List.take_length]
      rfl

theorem flatMap_get? : ∀ (vs : List Value) (i : Nat), i < vs.length → ∀ (j : Nat),
    j < lenN (vs.getD i (.prim 0)) →
    (vs.flatMap unlist).get? (preLen vs i + j) = (unlist (vs.getD i (.prim 0))).get? j
  | [], i, h, _, _ => by simp at h
  | v :: vs, 0, _, j, hj => by
      simp only [List.flatMap_cons, preLen_zero, Nat.zero_add, List.getD_cons_zero] at hj ⊢
      exact List.get?_append (by simpa [lenN] using hj)
  | v :: vs, i + 1, h, j, hj => by
      have ih := flatMap_get? vs i (by simpa using h) j (by simpa using hj)
      simp only [List.flatMap_cons, List.getD_cons_succ] at ih ⊢
      have hpre : preLen (v :: vs) (i + 1) = lenN v + preLen vs i := by
        unfold preLen
        simp [List.take_succ_cons]
      rw [hpre]
      rw [List.get?_append_right (by simp only [lenN]; omega)]
      have : lenN v + preLen vs i + j - (unlist v).length = preLen vs i + j := by
        simp only [lenN]
        omega
      rw [this]
      exact ih

theorem filter_take_get? : ∀ (l : List Value) (p : Value → Bool) (i : Nat), i < l.length →
    p (l.getD i (.prim 0)) = true →
    (l.filter p).get? ((l.take i).filter p).length = some (l.getD i (.prim 0))
  | [], _, i, h, _ => by simp at h
  | x :: xs, p, 0, _, hp => by
      simp only [List.getD_cons_zero] at hp ⊢
      simp [List.filter_cons, hp]
  | x :: xs, p, i + 1, h, hp => by
      have ih := filter_take_get? xs p i (by simpa using h) (by simpa using hp)
      simp only [List.getD_cons_succ] at hp ⊢
      rw [List.take_succ_cons]
      cases hpx : p x with
      | true => simpa [List.filter_cons, hpx] using ih
      | false => simpa [List.filter_cons, hpx] using ih

theorem filter_take_length_lt : ∀ (l : List Value) (p : Value → Bool) (i : Nat), i < l.length →
    p (l.getD i (.prim 0)) = true →
    ((l.take i).filter p).length < (l.filter p).length
  | [], _, i, h, _ => by simp at h
  | x :: xs, p, 0, _, hp => by
      simp only [List.getD_cons_zero] at hp
      simp [List.filter_cons, hp]
  | x :: xs, p, i + 1, h, hp => by
      have ih := filter_take_length_lt xs p i (by simpa using h) (by simpa using hp)
      rw [List.take_succ_cons]
      cases hpx : p x with
      | true => simp [List.filter_cons, hpx]; omega
      | false => simp [List.filter_cons, hpx]; omega

theorem sizeOf_lookup_lt {l : List (String × Value)} {fn : String} {x : Value}
    (h : List.lookup fn l = some x) : sizeOf x < sizeOf l := by
  induction l with
  | nil => simp [List.lookup] at h
  | cons p ps ih =>
      rw [List.lookup] at h
      split at h
      · rcases p with ⟨a, b⟩
        cases h
        simp
        omega
      · have := ih h
        rcases p with ⟨a, b⟩
        simp at this ⊢
        omega

/-! ### Element-access plumbing -/

theorem get?_eq_getD {α : Type} (d : α) {l : List α} {i : Nat} (h : i < l.length) :
    l.get? i = some (l.getD i d) := by
  rw [List.get?_eq_getElem?, List.getElem?_eq_getElem h, List.getD_eq_getElem _ _ h]

theorem getD_of_get? {α : Type} {l : List α} {i : Nat} {x d : α} (h : l.get? i = some x) :
    l.getD i d = x := by
  rw [List.getD_eq_getElem?_getD, ← List.get?_eq_getElem?, h]
  rfl

theorem map_get?_eq {α β : Type} (f : α → β) (d : α) {l : List α} {i : Nat} (h : i < l.length) :
    (l.map f).get? i = some (f (l.getD i d)) := by
  rw [List.get?_eq_getElem?, List.getElem?_map, List.getElem?_eq_getElem h,
    List.getD_eq_getElem _ _ h]
  rfl

theorem range_map_get? {β : Type} (f : Nat → β) {n i : Nat} (h : i < n) :
    ((List.range n).map f).get? i = some (f i) := by
  rw [List.get?_eq_getElem?, List.getElem?_map, List.getElem?_range h]
  rfl

theorem getD_mem {α : Type} (d : α) {l : List α} {i : Nat} (h : i < l.length) :
    l.getD i d ∈ l := by
  rw [List.getD_eq_getElem _ _ h]
  exact List.getElem_mem h

/-! ### The canonical offset buffer of a list column -/

theorem offsets_get? {vs : List Value} {i : Nat} (_ : i ≤ vs.length) :
    (0 :: Arrowed.cumsum 0 (vs.map lenOf)).get? i = some (Int.ofNat (preLen vs i)) := by
  cases i with
  | zero => rfl
  | succ j =>
      rename_i h
      rw [List.get?_cons_succ]
      exact cumsum_take_get? (by omega)

theorem starts_get? {vs : List Value} {i : Nat} (h : i < vs.length) :
    ((0 :: Arrowed.cumsum 0 (vs.map lenOf)).dropLast).get? i
      = some (Int.ofNat (preLen vs i)) := by
  have hlen : (Arrowed.cumsum 0 (vs.map lenOf)).length = vs.length := by
    rw [Arrowed.cumsum_length, List.length_map]
  rw [List.dropLast_eq_take, List.get?_eq_getElem?,
    List.getElem?_take_of_lt (by simp [hlen]; omega), ← List.get?_eq_getElem?]
  exact offsets_get? (le_of_lt h)

/-! ### Structure of the resolved reader -/

theorem rschOfFields_eq : ∀ (tfs : List (String × PType)) (vs : List Value),
    rschOfFields tfs vs = tfs.map (fun p => (p.1, rschOf p.2 (vs.map (getFieldD p.1))))
  | [], _ => by simp only [rschOfFields, List.map_nil]
  | (f, ft) :: ts, vs => by
      simp only [rschOfFields, List.map_cons]
      rw [rschOfFields_eq ts vs]

theorem rschOfUnion_length (of : List PType) : ∀ (ts : List PType) (b : Nat) (vs : List Value),
    (rschOfUnion of ts b vs).length = ts.length
  | [], _, _ => by simp only [rschOfUnion, List.length_nil]
  | t :: ts, b, vs => by
      simp only [rschOfUnion, List.length_cons]
      rw [rschOfUnion_length of ts (b + 1) vs]

theorem rschOfUnion_get? (of : List PType) : ∀ (ts : List PType) (b j : Nat) (vs : List Value),
    j < ts.length →
    (rschOfUnion of ts b vs).get? j = some (rschOf (ts.getD j .int) (branchVals of (b + j) vs))
  | [], _, j, _, hj => by simp at hj
  | t :: ts, b, 0, vs, _ => by
      simp only [rschOfUnion, List.get?_cons_zero, List.getD_cons_zero, Nat.add_zero]
  | t :: ts, b, j + 1, vs, hj => by
      simp only [rschOfUnion, List.get?_cons_succ, List.getD_cons_succ]
      rw [rschOfUnion_get? of ts (b + 1) j vs (by simpa using hj)]
      have he : b + 1 + j = b + (j + 1) := by omega
      rw [he]

theorem canon_flat_mem {vs : List Value} {of : PType}
    (hc : ∀ v ∈ vs, canon v (.list of) = true) :
    ∀ x ∈ vs.flatMap unlist, canon x of = true := by
  intro x hx
  rcases List.mem_flatMap.1 hx with ⟨v, hv, hxv⟩
  exact canonItems_mem (canon_list_elim (hc v hv)).2 x hxv

/-! ### Pointwise materialization of views and record rows -/

theorem materializeRange_eq_some {r : RSch} : ∀ (l : List Value) (s : Nat),
    (∀ j, j < l.length → materialize r (s + j) = some (l.getD j (.prim 0))) →
    materializeRange r (Int.ofNat s) l.length = some l
  | [], s, _ => by
      show materializeRange r (Int.ofNat s) 0 = some []
      simp [materializeRange]
  | x :: xs, s, h => by
      have h0 : materialize r s = some x := by
        have := h 0 (by simp)
        rwa [Nat.add_zero, List.getD_cons_zero] at this
      have hrec : materializeRange r (Int.ofNat s + 1) xs.length = some xs := by
        have he : (Int.ofNat s + 1) = Int.ofNat (s + 1) := rfl
        rw [he]
        refine materializeRange_eq_some xs (s + 1) (fun j hj => ?_)
        have h2 := h (j + 1) (by simp only [List.length_cons]; omega)
        rw [List.getD_cons_succ] at h2
        have he2 : s + 1 + j = s + (j + 1) := by omega
        rw [he2]
        exact h2
      simp only [List.length_cons, materializeRange]
      rw [show (Int.ofNat s).toNat = s from rfl, h0, hrec]

theorem materializeFields_eq (i : Nat) (g : String → Value) :
    ∀ (frs : List (String × RSch)),
    (∀ p ∈ frs, materialize p.2 i = some (g p.1)) →
    materializeFields frs i = some (frs.map (fun p => (p.1, g p.1)))
  | [], _ => by simp only [materializeFields, List.map_nil]
  | (f, r) :: rest, h => by
      have h0 : materialize r i = some (g f) := h (f, r) (List.mem_cons_self _ _)
      have hrec := materializeFields_eq i g rest (fun p hp => h p (List.mem_cons_of_mem _ hp))
      simp only [materializeFields, List.map_cons]
      rw [h0, hrec]

/-! ### Decoding: materialization inverts the flattened encoding -/

theorem decode_aux : ∀ (k : Nat) (T : PType) (vs : List Value),
    sizeOf T < k → wf T = true → (∀ v ∈ vs, canon v T = true) →
    ∀ i, i < vs.length →
    materialize (rschOf T vs) i = some (vs.getD i (.prim 0)) := by
  intro k
  induction k with
  | zero => intro T vs hk; exact absurd hk (by omega)
  | succ k ih =>
      intro T vs hk hwf hc i hi
      cases T with
      | int =>
          simp only [rschOf, materialize]
          rw [map_get?_eq toIntD (.prim 0) hi]
          simp only [Option.map_some']
          exact congrArg some (canon_int_elim (hc _ (getD_mem _ hi))).symm
      | list of =>
          have hwo : wf of = true := by simp only [wf] at hwf; exact hwf
          have hd : (Int.ofNat (preLen vs (i + 1)) - Int.ofNat (preLen vs i)).toNat
              = lenN (vs.getD i (.prim 0)) := by
            have := preLen_succ hi
            simp only [Int.ofNat_eq_natCast]
            omega
          have hsz : sizeOf of < k := by
            simp only [PType.list.sizeOf_spec] at hk
            omega
          have hrng : materializeRange (rschOf of (vs.flatMap unlist))
              (Int.ofNat (preLen vs i)) (lenN (vs.getD i (.prim 0)))
              = some (unlist (vs.getD i (.prim 0))) := by
            have hlen : (unlist (vs.getD i (.prim 0))).length
                = lenN (vs.getD i (.prim 0)) := rfl
            rw [← hlen]
            refine materializeRange_eq_some _ _ (fun j hj => ?_)
            have hib : preLen vs i + j < (vs.flatMap unlist).length := by
              rw [flatLen_eq]
              have h1 := preLen_succ hi
              have h2 : preLen vs (i + 1) ≤ preLen vs vs.length := preLen_mono (by omega)
              have h3 : j < lenN (vs.getD i (.prim 0)) := hj
              omega
            rw [ih of (vs.flatMap unlist) hsz hwo (canon_flat_mem hc) _ hib]
            have hfm := flatMap_get? vs i hi j hj
            rw [get?_eq_getD (Value.prim 0) hj] at hfm
            rw [getD_of_get? hfm]
          simp only [rschOf, materialize, List.drop_succ_cons, List.drop_zero,
            starts_get? hi, cumsum_take_get? hi, hd, hrng]
          exact congrArg some (canon_list_elim (hc _ (getD_mem _ hi))).1.symm
      | union of =>
          have hwl : wfList of = true := by simp only [wf] at hwf; exact hwf
          obtain ⟨t, hct, htl, hcv⟩ := canon_union_elim (hc _ (getD_mem _ hi))
          have htag : (tagsOf of vs).get? i = some (Int.ofNat t) := by
            rw [tagsOf, map_get?_eq _ (Value.prim 0) hi, hct]
            rfl
          have hoff : (uoffsOf of vs).get? i
              = some (Int.ofNat (branchVals of t (vs.take i)).length) := by
            rw [uoffsOf, range_map_get? _ hi, hct]
            rfl
          have hlen : (rschOfUnion of of 0 vs).length = of.length :=
            rschOfUnion_length of of 0 vs
          have hcond : 0 ≤ Int.ofNat t
              ∧ (Int.ofNat t).toNat < (rschOfUnion of of 0 vs).length := by
            refine ⟨by simp [Int.ofNat_eq_natCast], ?_⟩
            rw [hlen]
            exact htl
          have hget : (rschOfUnion of of 0 vs).get ⟨(Int.ofNat t).toNat, hcond.2⟩
              = rschOf (of.getD t .int) (branchVals of t vs) := by
            have h2 : (rschOfUnion of of 0 vs).get? ((Int.ofNat t).toNat)
                = some (rschOf (of.getD t .int) (branchVals of t vs)) := by
              show (rschOfUnion of of 0 vs).get? t = _
              rw [rschOfUnion_get? of of 0 t vs htl, Nat.zero_add]
            rw [List.get?_eq_get hcond.2] at h2
            exact Option.some.inj h2
          have hsz : sizeOf (of.getD t .int) < k := by
            have hmem : of.getD t .int ∈ of := getD_mem _ htl
            have := List.sizeOf_lt_of_mem hmem
            simp only [PType.union.sizeOf_spec] at hk
            omega
          have hcb : ∀ x ∈ branchVals of t vs, canon x (of.getD t .int) = true := by
            intro x hx
            rw [branchVals] at hx
            have hxt : chooseTag x of = some t := by
              have := List.of_mem_filter hx
              simpa using this
            exact (chooseTag_spec hxt).2
          have hpv : (fun v => chooseTag v of == some t) (vs.getD i (.prim 0)) = true := by
            show (chooseTag (vs.getD i (.prim 0)) of == some t) = true
            rw [hct]
            simp
          have hrank : (branchVals of t (vs.take i)).length < (branchVals of t vs).length := by
            have := filter_take_length_lt vs (fun v => chooseTag v of == some t) i hi hpv
            simpa [branchVals] using this
          have hgd : (branchVals of t vs).getD (branchVals of t (vs.take i)).length (.prim 0)
              = vs.getD i (.prim 0) := by
            have h4 := filter_take_get? vs (fun v => chooseTag v of == some t) i hi hpv
            exact getD_of_get? (by simpa [branchVals] using h4)
          have hfin := ih (of.getD t .int) (branchVals of t vs) hsz
            (wfList_getD hwl htl) hcb _ hrank
          rw [hgd] at hfin
          simp only [rschOf, materialize, htag, hoff]
          rw [dif_pos hcond, hget]
          exact hfin
      | record tfs =>
          have hnd : nodupKeys (tfs.map Prod.fst) = true ∧ wfFields tfs = true := by
            simp only [wf, Bool.and_eq_true] at hwf
            exact hwf
          obtain ⟨hv, hcf⟩ := canon_record_elim (hc _ (getD_mem _ hi))
          have hmf : materializeFields (rschOfFields tfs vs) i
              = some ((rschOfFields tfs vs).map
                  (fun p => (p.1, getFieldD p.1 (vs.getD i (.prim 0))))) := by
            refine materializeFields_eq i (fun f => getFieldD f (vs.getD i (.prim 0))) _ ?_
            intro p hp
            rw [rschOfFields_eq] at hp
            rcases List.mem_map.1 hp with ⟨q, hq, hpe⟩
            rcases q with ⟨f, ft⟩
            subst hpe
            dsimp only
            have hsz : sizeOf ft < k := by
              have h1 := List.sizeOf_lt_of_mem hq
              simp only [PType.record.sizeOf_spec] at hk
              simp only [Prod.mk.sizeOf_spec] at h1
              omega
            have hwft : wf ft = true := wfFields_mem hnd.2 _ hq
            have hlk : tfs.lookup f = some ft := nodupKeys_lookup hnd.1 _ hq
            have hcx : ∀ x ∈ vs.map (getFieldD f), canon x ft = true := by
              intro x hx
              rcases List.mem_map.1 hx with ⟨w, hw, hwx⟩
              rw [← hwx]
              exact (canon_field (hc w hw) hlk).2
            rw [ih ft (vs.map (getFieldD f)) hsz hwft hcx i (by simpa using hi)]
            exact congrArg some (getD_of_get? (map_get?_eq (getFieldD f) (Value.prim 0) hi))
          have hmap : (rschOfFields tfs vs).map
              (fun p => (p.1, getFieldD p.1 (vs.getD i (.prim 0))))
              = fieldsOf (vs.getD i (.prim 0)) := by
            rw [rschOfFields_eq, List.map_map]
            rw [List.map_congr_left (fun p hp => by
              show ((p.1, rschOf p.2 (vs.map (getFieldD p.1))).1,
                  getFieldD (p.1, rschOf p.2 (vs.map (getFieldD p.1))).1 (vs.getD i (.prim 0)))
                = (p.1, getFieldD p.1 (Value.record (fieldsOf (vs.getD i (.prim 0)))))
              dsimp only
              rw [← hv])]
            exact canonFields_recon hcf hnd.1
          rw [hmap] at hmf
          simp only [rschOf, materialize, hmf]
          exact congrArg some hv.symm
      | tup of =>
          simp [wf] at hwf


/-! ### Resolution: the reader template against finalized columns -/

theorem getD_of_getElem? {α : Type} {l : List α} {i : Nat} {x d : α} (h : l[i]? = some x) :
    l.getD i d = x := by
  rw [List.getD_eq_getElem?_getD, h]
  rfl

theorem finalizeCols_eq {n : AName} (c : AName → List Int)
    (h : n.getLast? ≠ some Seg.listOffset) : finalizeCols c n = c n := by
  unfold finalizeCols
  split
  · next heq => exact absurd heq h
  · rfl

theorem finalizeCols_offset {n : AName} (c : AName → List Int)
    (h : n.getLast? = some Seg.listOffset) : finalizeCols c n = 0 :: c n := by
  unfold finalizeCols
  rw [h]

theorem resolve_enc_aux : ∀ (k : Nat) (T : PType) (vs : List Value) (nm : AName)
    (c : AName → List Int),
    sizeOf T < k → wf T = true →
    nm.getLast? ≠ some Seg.listOffset →
    (∀ rel, c (nm ++ rel) = encCols T vs rel) →
    resolveA (arrowedOf T nm) (finalizeCols c) = rschOf T vs := by
  intro k
  induction k with
  | zero => intro T vs nm c hk; exact absurd hk (by omega)
  | succ k ih =>
      intro T vs nm c hk hwf hlast hcols
      cases T with
      | int =>
          simp only [arrowedOf, resolveA, rschOf]
          rw [finalizeCols_eq c hlast]
          have h1 := hcols []
          rw [List.append_nil] at h1
          simp only [encCols] at h1
          rw [h1]
      | list of =>
          have hwo : wf of = true := by simp only [wf] at hwf; exact hwf
          have hsz : sizeOf of < k := by
            simp only [PType.list.sizeOf_spec] at hk
            omega
          simp only [arrowedOf, resolveA, rschOf]
          have ho : finalizeCols c (nm ++ [Seg.listOffset])
              = 0 :: Arrowed.cumsum 0 (vs.map lenOf) := by
            rw [finalizeCols_offset c (List.getLast?_concat _), hcols [Seg.listOffset]]
            simp only [encCols]
          rw [ho]
          rw [ih of (vs.flatMap unlist) (nm ++ [Seg.listData]) c hsz hwo
            (by rw [List.getLast?_concat]; simp)
            (fun rel => by
              have h1 := hcols (Seg.listData :: rel)
              simp only [encCols] at h1
              rw [List.append_assoc]
              exact h1)]
      | union of =>
          have hwl : wfList of = true := by simp only [wf] at hwf; exact hwf
          simp only [arrowedOf, resolveA, rschOf]
          have ht : finalizeCols c (nm ++ [Seg.unionTag]) = tagsOf of vs := by
            rw [finalizeCols_eq c (by rw [List.getLast?_concat]; simp),
              hcols [Seg.unionTag]]
            simp only [encCols]
          have ho : finalizeCols c (nm ++ [Seg.unionOffset]) = uoffsOf of vs := by
            rw [finalizeCols_eq c (by rw [List.getLast?_concat]; simp),
              hcols [Seg.unionOffset]]
            simp only [encCols]
          rw [ht, ho]
          have hposs : ∀ (ts : List PType) (b : Nat), of.drop b = ts →
              resolveAList (arrowedOfUnion ts b nm) (finalizeCols c)
                = rschOfUnion of ts b vs := by
            intro ts
            induction ts with
            | nil => intro b _; simp only [arrowedOfUnion, resolveAList, rschOfUnion]
            | cons t ts2 ih2 =>
                intro b hdrop
                have h6 : of[b]? = some t := by
                  have h5 := List.getElem?_drop of b 0
                  rw [hdrop] at h5
                  simpa using h5.symm
                obtain ⟨hbl, hbe⟩ := List.getElem?_eq_some_iff.1 h6
                have hgetD : of.getD b .int = t := getD_of_getElem? h6
                have hmem : t ∈ of := by
                  rw [← hbe]
                  exact List.getElem_mem hbl
                have hdrop2 : of.drop (b + 1) = ts2 := by
                  have h5 := List.drop_drop 1 b of
                  rw [hdrop] at h5
                  simpa [Nat.add_comm] using h5.symm
                have hszt : sizeOf t < k := by
                  have h1 := List.sizeOf_lt_of_mem hmem
                  simp only [PType.union.sizeOf_spec] at hk
                  omega
                simp only [arrowedOfUnion, resolveAList, rschOfUnion]
                rw [ih t (branchVals of b vs) (nm ++ [Seg.unionData b]) c hszt
                  (wfList_mem hwl _ hmem)
                  (by rw [List.getLast?_concat]; simp)
                  (fun rel => by
                    have h1 := hcols (Seg.unionData b :: rel)
                    simp only [encCols] at h1
                    rw [hgetD] at h1
                    rw [List.append_assoc]
                    exact h1)]
                rw [ih2 (b + 1) hdrop2]
          rw [hposs of 0 (by simp)]
      | record tfs =>
          have hnd : nodupKeys (tfs.map Prod.fst) = true ∧ wfFields tfs = true := by
            simp only [wf, Bool.and_eq_true] at hwf
            exact hwf
          simp only [arrowedOf, resolveA, rschOf]
          have hfs : ∀ (ts : List (String × PType)), (∀ p ∈ ts, p ∈ tfs) →
              resolveAFields (arrowedOfFields ts nm) (finalizeCols c)
                = rschOfFields ts vs := by
            intro ts
            induction ts with
            | nil => intro _; simp only [arrowedOfFields, resolveAFields, rschOfFields]
            | cons p ts2 ih2 =>
                rcases p with ⟨f, ft⟩
                intro hsub
                have hmem : (f, ft) ∈ tfs := hsub _ (List.mem_cons_self _ _)
                have hlk : tfs.lookup f = some ft := nodupKeys_lookup hnd.1 _ hmem
                have hszf : sizeOf ft < k := by
                  have h1 := List.sizeOf_lt_of_mem hmem
                  simp only [PType.record.sizeOf_spec] at hk
                  simp only [Prod.mk.sizeOf_spec] at h1
                  omega
                simp only [arrowedOfFields, resolveAFields, rschOfFields]
                rw [ih ft (vs.map (getFieldD f)) (nm ++ [Seg.recField f]) c hszf
                  (wfFields_mem hnd.2 _ hmem)
                  (by rw [List.getLast?_concat]; simp)
                  (fun rel => by
                    have h1 := hcols (Seg.recField f :: rel)
                    simp only [encCols] at h1
                    rw [hlk] at h1
                    rw [List.append_assoc]
                    exact h1)]
                rw [ih2 (fun q hq => hsub q (List.mem_cons_of_mem _ hq))]
          rw [hfs tfs (fun q hq => hq)]
      | tup of => simp [wf] at hwf


/-! ### Column-name path algebra -/

theorem append_cons_ne (nm : AName) (s : Seg) (r : List Seg) : nm ++ s :: r ≠ nm := by
  intro h
  have := congrArg List.length h
  simp at this

theorem append_cons_eq_iff {nm : AName} {s1 s2 : Seg} {r1 r2 : List Seg} :
    nm ++ s1 :: r1 = nm ++ s2 :: r2 ↔ s1 = s2 ∧ r1 = r2 := by
  simp

theorem under1_iff {nm n : AName} {s : Seg} : Under (nm ++ [s]) n ↔ ∃ r, n = nm ++ s :: r := by
  constructor
  · rintro ⟨r, hr⟩
    exact ⟨r, by rw [hr, List.append_assoc]; rfl⟩
  · rintro ⟨r, hr⟩
    exact ⟨r, by rw [hr, List.append_assoc]; rfl⟩

theorem underP1_iff {nm n : AName} {s : Seg} :
    UnderP (nm ++ [s]) n ↔ ∃ r, r ≠ [] ∧ n = nm ++ s :: r := by
  constructor
  · rintro ⟨r, hrne, hr⟩
    exact ⟨r, hrne, by rw [hr, List.append_assoc]; rfl⟩
  · rintro ⟨r, hrne, hr⟩
    exact ⟨r, hrne, by rw [hr, List.append_assoc]; rfl⟩

theorem not_under1_head {nm : AName} {s s2 : Seg} {rest : List Seg} (h : s2 ≠ s) :
    ¬ Under (nm ++ [s]) (nm ++ s2 :: rest) := by
  rw [under1_iff]
  rintro ⟨r, hr⟩
  exact h (append_cons_eq_iff.1 hr).1

theorem not_under1_nm {nm : AName} {s : Seg} : ¬ Under (nm ++ [s]) nm := by
  rw [under1_iff]
  rintro ⟨r, hr⟩
  exact append_cons_ne nm s r hr.symm

theorem not_underP_of_not_under {nm n : AName} (h : ¬ Under nm n) : ¬ UnderP nm n := by
  rintro ⟨r, _, hr⟩
  exact h ⟨r, hr⟩

theorem not_underP1_self {nm : AName} {s : Seg} : ¬ UnderP (nm ++ [s]) (nm ++ [s]) := by
  rw [underP1_iff]
  rintro ⟨r, hrne, hr⟩
  exact hrne (append_cons_eq_iff.1 hr).2.symm

/-! ### Frame algebra -/

theorem frame_refl (nm : AName) (st : FillState) : Frame nm st st :=
  ⟨fun _ _ => rfl, fun _ _ => ⟨rfl, rfl⟩⟩

theorem frame_trans {nm : AName} {st1 st2 st3 : FillState}
    (h1 : Frame nm st1 st2) (h2 : Frame nm st2 st3) : Frame nm st1 st3 := by
  refine ⟨fun n hn => ?_, fun n hn => ?_⟩
  · rw [h2.1 n hn, h1.1 n hn]
  · exact ⟨by rw [(h2.2 n hn).1, (h1.2 n hn).1], by rw [(h2.2 n hn).2, (h1.2 n hn).2]⟩

theorem frame_ext {nm : AName} {s : Seg} {st st2 : FillState}
    (h : Frame (nm ++ [s]) st st2) : Frame nm st st2 := by
  refine ⟨fun n hn => ?_, fun n hn => ?_⟩
  · refine h.1 n (fun hu => hn ?_)
    rcases (under1_iff).1 hu with ⟨r, hr⟩
    exact ⟨s :: r, hr⟩
  · refine h.2 n (fun hu => hn ?_)
    rcases (underP1_iff).1 hu with ⟨r, _, hr⟩
    exact ⟨s :: r, by simp, hr⟩

/-! ### Fill-state one-step semantics -/

theorem fillCol_cols_self (st : FillState) (k : AName) (v : Int) :
    (fillCol st k v).cols k = st.cols k ++ [v] := by
  simp [fillCol, updFn]

theorem fillCol_cols_ne (st : FillState) (k : AName) (v : Int) {n : AName} (h : n ≠ k) :
    (fillCol st k v).cols n = st.cols n := by
  simp [fillCol, updFn, h]

theorem fillCol_lastList (st : FillState) (k : AName) (v : Int) :
    (fillCol st k v).lastList = st.lastList := rfl

theorem fillCol_lastUnion (st : FillState) (k : AName) (v : Int) :
    (fillCol st k v).lastUnion = st.lastUnion := rfl

theorem updFn_self {β : Type} (f : AName → β) (k : AName) (v : β) : updFn f k v k = v := by
  simp [updFn]

theorem updFn_ne {β : Type} (f : AName → β) (k : AName) (v : β) {n : AName} (h : n ≠ k) :
    updFn f k v n = f n := by
  simp [updFn, h]

/-! ### Appending one row to the encodings -/

theorem cumsum_append (a : Int) : ∀ (l1 l2 : List Int),
    Arrowed.cumsum a (l1 ++ l2) = Arrowed.cumsum a l1 ++ Arrowed.cumsum (a + l1.sum) l2
  | [], l2 => by simp [Arrowed.cumsum]
  | c :: cs, l2 => by
      simp only [List.cons_append, Arrowed.cumsum, List.sum_cons, List.append_eq]
      rw [cumsum_append (a + c) cs l2, add_assoc]

theorem sumLens_append (vs ws : List Value) : sumLens (vs ++ ws) = sumLens vs + sumLens ws := by
  simp [sumLens]

theorem sumLens_single (v : Value) : sumLens [v] = lenOf v := by
  simp [sumLens]

theorem map_append_one {α β : Type} (f : α → β) (l : List α) (x : α) :
    (l ++ [x]).map f = l.map f ++ [f x] := by
  simp

theorem flatMap_append_one (vs : List Value) (v : Value) :
    (vs ++ [v]).flatMap unlist = vs.flatMap unlist ++ unlist v := by
  simp

theorem tagsOf_append (of : List PType) (vs ws : List Value) :
    tagsOf of (vs ++ ws) = tagsOf of vs ++ tagsOf of ws := by
  simp [tagsOf]

theorem branchVals_append (of : List PType) (b : Nat) (vs ws : List Value) :
    branchVals of b (vs ++ ws) = branchVals of b vs ++ branchVals of b ws := by
  simp [branchVals]

theorem branchVals_single_self {of : List PType} {v : Value} {tag : Nat}
    (h : chooseTag v of = some tag) : branchVals of tag [v] = [v] := by
  simp [branchVals, List.filter_cons, h]

theorem branchVals_single_other {of : List PType} {v : Value} {tag b : Nat}
    (h : chooseTag v of = some tag) (hb : b ≠ tag) : branchVals of b [v] = [] := by
  simp [branchVals, List.filter_cons, h]
  exact fun he => absurd he.symm hb

theorem uoffsOf_append_one (of : List PType) (vs : List Value) (v : Value) :
    uoffsOf of (vs ++ [v]) = uoffsOf of vs
      ++ [Int.ofNat (branchVals of ((chooseTag v of).getD 0) vs).length] := by
  unfold uoffsOf
  rw [List.length_append]
  simp only [List.length_cons, List.length_nil, Nat.zero_add]
  rw [List.range_succ, List.map_append]
  congr 1
  · apply List.map_congr_left
    intro i hi
    have hi2 : i < vs.length := List.mem_range.1 hi
    have h1 : (vs ++ [v]).getD i (.prim 0) = vs.getD i (.prim 0) := by
      rw [List.getD_eq_getElem?_getD, List.getD_eq_getElem?_getD,
        List.getElem?_append_left hi2]
    have h2 : (vs ++ [v]).take i = vs.take i :=
      List.take_append_of_le_length (le_of_lt hi2)
    rw [h1, h2]
  · simp only [List.map_cons, List.map_nil]
    have h1 : (vs ++ [v]).getD vs.length (.prim 0) = v := by
      rw [List.getD_eq_getElem?_getD, List.getElem?_append_right (le_refl _)]
      simp
    have h2 : (vs ++ [v]).take vs.length = vs := by
      rw [List.take_append_of_le_length (le_refl _), List.take_length]
    rw [h1, h2]

/-! ### Size bookkeeping for the operational induction -/

theorem sizeOf_fieldsOf_le (v : Value) : sizeOf (fieldsOf v) ≤ sizeOf v := by
  cases v <;> simp [fieldsOf] <;> omega

theorem sizeOf_union_getD {of : List PType} {t : Nat} (h : t < of.length) :
    sizeOf (of.getD t .int) < sizeOf of :=
  List.sizeOf_lt_of_mem (getD_mem _ h)


/-! ### `recurse` on a primitive -/

theorem opfill_prim (v : Value) (nm : AName) (st : FillState) (vs : List Value)
    (hc : canon v .int = true) (hst : StOK .int vs nm st) :
    ∃ st2, recurse v .int nm st = .ok st2
      ∧ StOK .int (vs ++ [v]) nm st2 ∧ Frame nm st st2 := by
  obtain ⟨n, hn⟩ : ∃ n, v = .prim n := ⟨toIntD v, canon_int_elim hc⟩
  subst hn
  refine ⟨fillCol st nm n, by simp [recurse], ⟨fun rel => ?_, fun rel hne => ?_,
    fun rel hne => ?_⟩, ?_⟩
  · cases rel with
    | nil =>
        rw [List.append_nil, fillCol_cols_self]
        have h0 := hst.1 []
        rw [List.append_nil] at h0
        simp only [encCols] at h0 ⊢
        rw [h0, map_append_one]
        rfl
    | cons s rest =>
        rw [fillCol_cols_ne st nm n (append_cons_ne nm s rest), hst.1 (s :: rest)]
        cases s <;> simp [encCols]
  · rw [fillCol_lastList, hst.2.1 rel hne]
    cases rel with
    | nil => exact absurd rfl hne
    | cons s rest => cases s <;> simp [encLL]
  · rw [fillCol_lastUnion, hst.2.2 rel hne]
    cases rel with
    | nil => exact absurd rfl hne
    | cons s rest => cases s <;> simp [encLU]
  · refine ⟨fun n2 hn2 => ?_, fun n2 _ => ⟨rfl, rfl⟩⟩
    have hne : n2 ≠ nm := fun he => hn2 (he ▸ ⟨[], by simp⟩)
    exact fillCol_cols_ne st nm n hne

/-! ### `recurse` on a list -/

theorem listStep_cols_ne (st : FillState) (no : AName) (W : Int) {n : AName} (h : n ≠ no) :
    (fillCol { st with lastList := updFn st.lastList no W } no W).cols n = st.cols n := by
  simp [fillCol, updFn, h]

theorem listStep_cols_self (st : FillState) (no : AName) (W : Int) :
    (fillCol { st with lastList := updFn st.lastList no W } no W).cols no
      = st.cols no ++ [W] := by
  simp [fillCol, updFn]

theorem listStep_lastList_ne (st : FillState) (no : AName) (W : Int) {n : AName} (h : n ≠ no) :
    (fillCol { st with lastList := updFn st.lastList no W } no W).lastList n
      = st.lastList n := by
  simp [fillCol, updFn, h]

theorem listStep_lastList_self (st : FillState) (no : AName) (W : Int) :
    (fillCol { st with lastList := updFn st.lastList no W } no W).lastList no = W := by
  simp [fillCol, updFn]

theorem listStep_lastUnion (st : FillState) (no : AName) (W : Int) :
    (fillCol { st with lastList := updFn st.lastList no W } no W).lastUnion
      = st.lastUnion := rfl

theorem encLL_nil (T : PType) (vs : List Value) : encLL T vs [] = 0 := by
  cases T <;> simp [encLL]

theorem encLU_nil (T : PType) (vs : List Value) : encLU T vs [] = 0 := by
  cases T <;> simp [encLU]

theorem opfill_list_case (k : Nat) (ihI : PItems k) (xs : List Value) (of : PType)
    (nm : AName) (st : FillState) (vs : List Value)
    (hk : sizeOf (Value.list xs) + sizeOf (PType.list of) < k + 1)
    (hc : canon (Value.list xs) (.list of) = true) (hwf : wf (.list of) = true)
    (hst : StOK (.list of) vs nm st) :
    ∃ st2, recurse (.list xs) (.list of) nm st = .ok st2
      ∧ StOK (.list of) (vs ++ [Value.list xs]) nm st2 ∧ Frame nm st st2 := by
  have hci : canonItems xs of = true := by simpa [canon] using hc
  have hwo : wf of = true := by simpa [wf] using hwf
  have hk2 : sizeOf xs + sizeOf of < k := by
    simp only [Value.list.sizeOf_spec, PType.list.sizeOf_spec] at hk
    omega
  have hstd : StOK of (vs.flatMap unlist) (nm ++ [Seg.listData])
      (fillCol { st with lastList := (updFn st.lastList (nm ++ [Seg.listOffset]) (st.lastList (nm ++ [Seg.listOffset]) + Int.ofNat xs.length)) }
        (nm ++ [Seg.listOffset])
        (st.lastList (nm ++ [Seg.listOffset]) + Int.ofNat xs.length)) := by
    have hne2 : ∀ rel : List Seg, (nm ++ [Seg.listData]) ++ rel ≠ nm ++ [Seg.listOffset] := by
      intro rel h
      rw [List.append_assoc, List.singleton_append] at h
      exact absurd (append_cons_eq_iff.1 h).1 (by simp)
    refine ⟨fun rel => ?_, fun rel _ => ?_, fun rel _ => ?_⟩
    · rw [listStep_cols_ne st _ _ (hne2 rel)]
      have h1 := hst.1 (Seg.listData :: rel)
      simp only [encCols] at h1
      rw [List.append_assoc, List.singleton_append]
      exact h1
    · rw [listStep_lastList_ne st _ _ (hne2 rel)]
      have h1 := hst.2.1 (Seg.listData :: rel) (by simp)
      simp only [encLL] at h1
      rw [List.append_assoc, List.singleton_append]
      exact h1
    · rw [listStep_lastUnion]
      have h1 := hst.2.2 (Seg.listData :: rel) (by simp)
      simp only [encLU] at h1
      rw [List.append_assoc, List.singleton_append]
      exact h1
  obtain ⟨st2, hrun, hst2, hfr2⟩ := ihI xs of (nm ++ [Seg.listData]) _ (vs.flatMap unlist)
    hk2 (canonItems_mem hci) hwo hstd
  refine ⟨st2, by simpa only [recurse] using hrun,
    ⟨fun rel => ?_, fun rel hne => ?_, fun rel hne => ?_⟩, ?_⟩
  · cases rel with
    | nil =>
        rw [List.append_nil, hfr2.1 nm not_under1_nm,
          listStep_cols_ne st _ _ (Ne.symm (append_cons_ne nm Seg.listOffset []))]
        have h1 := hst.1 []
        rw [List.append_nil] at h1
        rw [h1]
        simp [encCols]
    | cons s rest =>
        cases s with
        | listOffset =>
            cases rest with
            | nil =>
                rw [hfr2.1 _ (not_under1_head (by simp)), listStep_cols_self]
                have h1 := hst.1 [Seg.listOffset]
                have h2 := hst.2.1 [Seg.listOffset] (by simp)
                simp only [encCols] at h1
                simp only [encLL] at h2
                rw [h1, h2]
                simp only [encCols]
                rw [map_append_one, cumsum_append]
                congr 1
                simp [Arrowed.cumsum, sumLens, lenOf, unlist]
            | cons s2 r2 =>
                have hne2 : nm ++ Seg.listOffset :: s2 :: r2 ≠ nm ++ [Seg.listOffset] := by
                  intro h
                  have := (append_cons_eq_iff.1 h).2
                  simp at this
                rw [hfr2.1 _ (not_under1_head (by simp)), listStep_cols_ne st _ _ hne2,
                  hst.1 (Seg.listOffset :: s2 :: r2)]
                simp [encCols]
        | listData =>
            have h5 := hst2.1 rest
            rw [List.append_assoc, List.singleton_append] at h5
            rw [h5]
            simp only [encCols]
            rw [flatMap_append_one]
            rfl
        | unionTag =>
            rw [hfr2.1 _ (not_under1_head (by simp)),
              listStep_cols_ne st _ _ (fun h => absurd (append_cons_eq_iff.1 h).1 (by simp)),
              hst.1 (Seg.unionTag :: rest)]
            simp [encCols]
        | unionOffset =>
            rw [hfr2.1 _ (not_under1_head (by simp)),
              listStep_cols_ne st _ _ (fun h => absurd (append_cons_eq_iff.1 h).1 (by simp)),
              hst.1 (Seg.unionOffset :: rest)]
            simp [encCols]
        | unionData b =>
            rw [hfr2.1 _ (not_under1_head (by simp)),
              listStep_cols_ne st _ _ (fun h => absurd (append_cons_eq_iff.1 h).1 (by simp)),
              hst.1 (Seg.unionData b :: rest)]
            simp [encCols]
        | recField f =>
            rw [hfr2.1 _ (not_under1_head (by simp)),
              listStep_cols_ne st _ _ (fun h => absurd (append_cons_eq_iff.1 h).1 (by simp)),
              hst.1 (Seg.recField f :: rest)]
            simp [encCols]
  · cases rel with
    | nil => exact absurd rfl hne
    | cons s rest =>
        cases s with
        | listOffset =>
            cases rest with
            | nil =>
                rw [(hfr2.2 _ (not_underP_of_not_under (not_under1_head (by simp)))).1,
                  listStep_lastList_self]
                have h2 := hst.2.1 [Seg.listOffset] (by simp)
                simp only [encLL] at h2 ⊢
                rw [h2, sumLens_append, sumLens_single]
                rfl
            | cons s2 r2 =>
                have hne2 : nm ++ Seg.listOffset :: s2 :: r2 ≠ nm ++ [Seg.listOffset] := by
                  intro h
                  have := (append_cons_eq_iff.1 h).2
                  simp at this
                rw [(hfr2.2 _ (not_underP_of_not_under (not_under1_head (by simp)))).1,
                  listStep_lastList_ne st _ _ hne2,
                  hst.2.1 (Seg.listOffset :: s2 :: r2) (by simp)]
                simp [encLL]
        | listData =>
            cases rest with
            | nil =>
                rw [(hfr2.2 _ not_underP1_self).1,
                  listStep_lastList_ne st _ _
                    (fun h => absurd (append_cons_eq_iff.1 h).1 (by simp)),
                  hst.2.1 [Seg.listData] (by simp)]
                simp only [encLL, encLL_nil]
            | cons s2 r2 =>
                have h6 := hst2.2.1 (s2 :: r2) (by simp)
                rw [List.append_assoc, List.singleton_append] at h6
                rw [h6]
                simp only [encLL]
                rw [flatMap_append_one]
                rfl
        | unionTag =>
            rw [(hfr2.2 _ (not_underP_of_not_under (not_under1_head (by simp)))).1,
              listStep_lastList_ne st _ _
                (fun h => absurd (append_cons_eq_iff.1 h).1 (by simp)),
              hst.2.1 (Seg.unionTag :: rest) (by simp)]
            simp [encLL]
        | unionOffset =>
            rw [(hfr2.2 _ (not_underP_of_not_under (not_under1_head (by simp)))).1,
              listStep_lastList_ne st _ _
                (fun h => absurd (append_cons_eq_iff.1 h).1 (by simp)),
              hst.2.1 (Seg.unionOffset :: rest) (by simp)]
            simp [encLL]
        | unionData b =>
            rw [(hfr2.2 _ (not_underP_of_not_under (not_under1_head (by simp)))).1,
              listStep_lastList_ne st _ _
                (fun h => absurd (append_cons_eq_iff.1 h).1 (by simp)),
              hst.2.1 (Seg.unionData b :: rest) (by simp)]
            simp [encLL]
        | recField f =>
            rw [(hfr2.2 _ (not_underP_of_not_under (not_under1_head (by simp)))).1,
              listStep_lastList_ne st _ _
                (fun h => absurd (append_cons_eq_iff.1 h).1 (by simp)),
              hst.2.1 (Seg.recField f :: rest) (by simp)]
            simp [encLL]
  · cases rel with
    | nil => exact absurd rfl hne
    | cons s rest =>
        cases s with
        | listOffset =>
            rw [(hfr2.2 _ (not_underP_of_not_under (not_under1_head (by simp)))).2,
              listStep_lastUnion, hst.2.2 (Seg.listOffset :: rest) (by simp)]
            simp [encLU]
        | listData =>
            cases rest with
            | nil =>
                rw [(hfr2.2 _ not_underP1_self).2, listStep_lastUnion,
                  hst.2.2 [Seg.listData] (by simp)]
                simp only [encLU, encLU_nil]
            | cons s2 r2 =>
                have h6 := hst2.2.2 (s2 :: r2) (by simp)
                rw [List.append_assoc, List.singleton_append] at h6
                rw [h6]
                simp only [encLU]
                rw [flatMap_append_one]
                rfl
        | unionTag =>
            rw [(hfr2.2 _ (not_underP_of_not_under (not_under1_head (by simp)))).2,
              listStep_lastUnion, hst.2.2 (Seg.unionTag :: rest) (by simp)]
            simp [encLU]
        | unionOffset =>
            rw [(hfr2.2 _ (not_underP_of_not_under (not_under1_head (by simp)))).2,
              listStep_lastUnion, hst.2.2 (Seg.unionOffset :: rest) (by simp)]
            simp [encLU]
        | unionData b =>
            rw [(hfr2.2 _ (not_underP_of_not_under (not_under1_head (by simp)))).2,
              listStep_lastUnion, hst.2.2 (Seg.unionData b :: rest) (by simp)]
            simp [encLU]
        | recField f =>
            rw [(hfr2.2 _ (not_underP_of_not_under (not_under1_head (by simp)))).2,
              listStep_lastUnion, hst.2.2 (Seg.recField f :: rest) (by simp)]
            simp [encLU]
  · refine frame_trans ?_ (frame_ext hfr2)
    refine ⟨fun n2 hn2 => ?_, fun n2 hn2 => ?_⟩
    · exact listStep_cols_ne st _ _ (fun he => hn2 ⟨[Seg.listOffset], he⟩)
    · exact ⟨listStep_lastList_ne st _ _ (fun he => hn2 ⟨[Seg.listOffset], by simp, he⟩),
        by rw [listStep_lastUnion]⟩

/-! ### `recurse` on a union -/

theorem withLU_cols (st : FillState) (nd : AName) (w : Int) :
    ({ st with lastUnion := updFn st.lastUnion nd w }).cols = st.cols := rfl

theorem withLU_lastList (st : FillState) (nd : AName) (w : Int) :
    ({ st with lastUnion := updFn st.lastUnion nd w }).lastList = st.lastList := rfl

theorem withLU_lastUnion_self (st : FillState) (nd : AName) (w : Int) :
    ({ st with lastUnion := updFn st.lastUnion nd w }).lastUnion nd = w := by
  simp [updFn]

theorem withLU_lastUnion_ne (st : FillState) (nd : AName) (w : Int) {n : AName} (h : n ≠ nd) :
    ({ st with lastUnion := updFn st.lastUnion nd w }).lastUnion n = st.lastUnion n := by
  simp [updFn, h]

theorem append_ne_self_of_ne_nil {nm rel : AName} (h : rel ≠ []) : nm ++ rel ≠ nm := by
  intro he
  have h2 := congrArg List.length he
  rw [List.length_append] at h2
  have h3 : rel.length = 0 := by omega
  exact h (List.eq_nil_of_length_eq_zero h3)

theorem tagsOf_single (of : List PType) {v : Value} {tag : Nat}
    (h : chooseTag v of = some tag) : tagsOf of [v] = [Int.ofNat tag] := by
  simp [tagsOf, h]

theorem opfill_union_case (k : Nat) (ihF : PFill k) (v : Value) (of : List PType)
    (nm : AName) (st : FillState) (vs : List Value)
    (hk : sizeOf v + sizeOf (PType.union of) < k + 1)
    (hc : canon v (.union of) = true) (hwf : wf (.union of) = true)
    (hst : StOK (.union of) vs nm st) :
    ∃ st2, recurse v (.union of) nm st = .ok st2
      ∧ StOK (.union of) (vs ++ [v]) nm st2 ∧ Frame nm st st2 := by
  have hwl : wfList of = true := by simpa [wf] using hwf
  obtain ⟨tag, hct, htl, hcv⟩ := canon_union_elim hc
  have hk2 : sizeOf v + sizeOf (of.getD tag .int) < k := by
    have := sizeOf_union_getD htl
    simp only [PType.union.sizeOf_spec] at hk
    omega
  have hnttag : ∀ r1 : List Seg, nm ++ Seg.unionOffset :: r1 ≠ nm ++ [Seg.unionTag] := by
    intro r1 h
    exact absurd (append_cons_eq_iff.1 h).1 (by simp)
  have hstd : StOK (of.getD tag .int) (branchVals of tag vs) (nm ++ [Seg.unionData tag])
      ({ fillCol (fillCol st (nm ++ [Seg.unionTag]) (Int.ofNat tag)) (nm ++ [Seg.unionOffset]) (st.lastUnion (nm ++ [Seg.unionData tag])) with
          lastUnion := (updFn (fillCol (fillCol st (nm ++ [Seg.unionTag]) (Int.ofNat tag)) (nm ++ [Seg.unionOffset]) (st.lastUnion (nm ++ [Seg.unionData tag]))).lastUnion (nm ++ [Seg.unionData tag]) (st.lastUnion (nm ++ [Seg.unionData tag]) + 1)) }) := by
    have hnea : ∀ (rel : List Seg) (s : Seg), s ≠ Seg.unionData tag →
        (nm ++ [Seg.unionData tag]) ++ rel ≠ nm ++ [s] := by
      intro rel s hs h
      rw [List.append_assoc, List.singleton_append] at h
      exact absurd (append_cons_eq_iff.1 h).1 (fun he => hs he.symm)
    refine ⟨fun rel => ?_, fun rel _ => ?_, fun rel hne => ?_⟩
    · rw [withLU_cols,
        fillCol_cols_ne _ _ _ (hnea rel Seg.unionOffset (by simp)),
        fillCol_cols_ne _ _ _ (hnea rel Seg.unionTag (by simp))]
      have h1 := hst.1 (Seg.unionData tag :: rel)
      simp only [encCols] at h1
      rw [List.append_assoc, List.singleton_append]
      exact h1
    · rw [withLU_lastList, fillCol_lastList, fillCol_lastList]
      have h1 := hst.2.1 (Seg.unionData tag :: rel) (by simp)
      simp only [encLL] at h1
      rw [List.append_assoc, List.singleton_append]
      exact h1
    · rw [withLU_lastUnion_ne _ _ _ (append_ne_self_of_ne_nil hne),
        fillCol_lastUnion, fillCol_lastUnion]
      cases rel with
      | nil => exact absurd rfl hne
      | cons s2 r2 =>
          have h1 := hst.2.2 (Seg.unionData tag :: s2 :: r2) (by simp)
          simp only [encLU] at h1
          rw [List.append_assoc, List.singleton_append]
          exact h1
  obtain ⟨st3, hrun, hst3, hfr3⟩ := ihF v (of.getD tag .int) (nm ++ [Seg.unionData tag]) _ (branchVals of tag vs) hk2 hcv (wfList_getD hwl htl) hstd
  refine ⟨st3, by simp only [recurse, hct]; exact hrun,
    ⟨fun rel => ?_, fun rel hne => ?_, fun rel hne => ?_⟩, ?_⟩
  · cases rel with
    | nil =>
        rw [List.append_nil, hfr3.1 nm not_under1_nm, withLU_cols,
          fillCol_cols_ne _ _ _ (Ne.symm (append_cons_ne nm Seg.unionOffset [])),
          fillCol_cols_ne _ _ _ (Ne.symm (append_cons_ne nm Seg.unionTag []))]
        have h1 := hst.1 []
        rw [List.append_nil] at h1
        rw [h1]
        simp [encCols]
    | cons s rest =>
        cases s with
        | unionTag =>
            cases rest with
            | nil =>
                rw [hfr3.1 _ (not_under1_head (by simp)), withLU_cols,
                  fillCol_cols_ne _ _ _ (Ne.symm (hnttag [])), fillCol_cols_self]
                have h1 := hst.1 [Seg.unionTag]
                simp only [encCols] at h1 ⊢
                rw [h1, tagsOf_append, tagsOf_single of hct]
            | cons s2 r2 =>
                have hne2 : nm ++ Seg.unionTag :: s2 :: r2 ≠ nm ++ [Seg.unionTag] := by
                  intro h
                  have := (append_cons_eq_iff.1 h).2
                  simp at this
                rw [hfr3.1 _ (not_under1_head (by simp)), withLU_cols,
                  fillCol_cols_ne _ _ _ (fun h => absurd (append_cons_eq_iff.1 h).1 (by simp)),
                  fillCol_cols_ne _ _ _ hne2, hst.1 (Seg.unionTag :: s2 :: r2)]
                simp [encCols]
        | unionOffset =>
            cases rest with
            | nil =>
                rw [hfr3.1 _ (not_under1_head (by simp)), withLU_cols, fillCol_cols_self,
                  fillCol_cols_ne _ _ _ (hnttag [])]
                have h1 := hst.1 [Seg.unionOffset]
                have h2 := hst.2.2 [Seg.unionData tag] (by simp)
                simp only [encCols] at h1 ⊢
                simp only [encLU] at h2
                rw [h1, h2, uoffsOf_append_one, hct]
                simp
            | cons s2 r2 =>
                have hne2 : nm ++ Seg.unionOffset :: s2 :: r2 ≠ nm ++ [Seg.unionOffset] := by
                  intro h
                  have := (append_cons_eq_iff.1 h).2
                  simp at this
                rw [hfr3.1 _ (not_under1_head (by simp)), withLU_cols,
                  fillCol_cols_ne _ _ _ hne2,
                  fillCol_cols_ne _ _ _ (fun h => absurd (append_cons_eq_iff.1 h).1 (by simp)),
                  hst.1 (Seg.unionOffset :: s2 :: r2)]
                simp [encCols]
        | unionData b =>
            by_cases hb : b = tag
            · subst hb
              have h5 := hst3.1 rest
              rw [List.append_assoc, List.singleton_append] at h5
              rw [h5]
              simp only [encCols]
              rw [branchVals_append, branchVals_single_self hct]
            · have hbneq : Seg.unionData b ≠ Seg.unionData tag := by simpa using hb
              rw [hfr3.1 _ (not_under1_head hbneq), withLU_cols,
                fillCol_cols_ne _ _ _ (fun h => absurd (append_cons_eq_iff.1 h).1 (by simp)),
                fillCol_cols_ne _ _ _ (fun h => absurd (append_cons_eq_iff.1 h).1 (by simp)),
                hst.1 (Seg.unionData b :: rest)]
              simp only [encCols]
              rw [branchVals_append, branchVals_single_other hct hb, List.append_nil]
        | listOffset =>
            rw [hfr3.1 _ (not_under1_head (by simp)), withLU_cols,
              fillCol_cols_ne _ _ _ (fun h => absurd (append_cons_eq_iff.1 h).1 (by simp)),
              fillCol_cols_ne _ _ _ (fun h => absurd (append_cons_eq_iff.1 h).1 (by simp)),
              hst.1 (Seg.listOffset :: rest)]
            simp [encCols]
        | listData =>
            rw [hfr3.1 _ (not_under1_head (by simp)), withLU_cols,
              fillCol_cols_ne _ _ _ (fun h => absurd (append_cons_eq_iff.1 h).1 (by simp)),
              fillCol_cols_ne _ _ _ (fun h => absurd (append_cons_eq_iff.1 h).1 (by simp)),
              hst.1 (Seg.listData :: rest)]
            simp [encCols]
        | recField f =>
            rw [hfr3.1 _ (not_under1_head (by simp)), withLU_cols,
              fillCol_cols_ne _ _ _ (fun h => absurd (append_cons_eq_iff.1 h).1 (by simp)),
              fillCol_cols_ne _ _ _ (fun h => absurd (append_cons_eq_iff.1 h).1 (by simp)),
              hst.1 (Seg.recField f :: rest)]
            simp [encCols]
  · cases rel with
    | nil => exact absurd rfl hne
    | cons s rest =>
        cases s with
        | unionData b =>
            by_cases hb : b = tag
            · subst hb
              cases rest with
              | nil =>
                  rw [(hfr3.2 _ not_underP1_self).1, withLU_lastList, fillCol_lastList,
                    fillCol_lastList, hst.2.1 [Seg.unionData b] (by simp)]
                  simp only [encLL, encLL_nil]
              | cons s2 r2 =>
                  have h6 := hst3.2.1 (s2 :: r2) (by simp)
                  rw [List.append_assoc, List.singleton_append] at h6
                  rw [h6]
                  simp only [encLL]
                  rw [branchVals_append, branchVals_single_self hct]
            · have hbneq : Seg.unionData b ≠ Seg.unionData tag := by simpa using hb
              rw [(hfr3.2 _ (not_underP_of_not_under (not_under1_head hbneq))).1,
                withLU_lastList, fillCol_lastList, fillCol_lastList,
                hst.2.1 (Seg.unionData b :: rest) (by simp)]
              simp only [encLL]
              rw [branchVals_append, branchVals_single_other hct hb, List.append_nil]
        | unionTag =>
            rw [(hfr3.2 _ (not_underP_of_not_under (not_under1_head (by simp)))).1,
              withLU_lastList, fillCol_lastList, fillCol_lastList,
              hst.2.1 (Seg.unionTag :: rest) (by simp)]
            simp [encLL]
        | unionOffset =>
            rw [(hfr3.2 _ (not_underP_of_not_under (not_under1_head (by simp)))).1,
              withLU_lastList, fillCol_lastList, fillCol_lastList,
              hst.2.1 (Seg.unionOffset :: rest) (by simp)]
            simp [encLL]
        | listOffset =>
            rw [(hfr3.2 _ (not_underP_of_not_under (not_under1_head (by simp)))).1,
              withLU_lastList, fillCol_lastList, fillCol_lastList,
              hst.2.1 (Seg.listOffset :: rest) (by simp)]
            simp [encLL]
        | listData =>
            rw [(hfr3.2 _ (not_underP_of_not_under (not_under1_head (by simp)))).1,
              withLU_lastList, fillCol_lastList, fillCol_lastList,
              hst.2.1 (Seg.listData :: rest) (by simp)]
            simp [encLL]
        | recField f =>
            rw [(hfr3.2 _ (not_underP_of_not_under (not_under1_head (by simp)))).1,
              withLU_lastList, fillCol_lastList, fillCol_lastList,
              hst.2.1 (Seg.recField f :: rest) (by simp)]
            simp [encLL]
  · cases rel with
    | nil => exact absurd rfl hne
    | cons s rest =>
        cases s with
        | unionData b =>
            by_cases hb : b = tag
            · subst hb
              cases rest with
              | nil =>
                  rw [(hfr3.2 _ not_underP1_self).2, withLU_lastUnion_self]
                  have h2 := hst.2.2 [Seg.unionData b] (by simp)
                  simp only [encLU] at h2 ⊢
                  rw [h2, branchVals_append, branchVals_single_self hct,
                    List.length_append, List.length_cons, List.length_nil]
                  simp [Int.ofNat_eq_natCast]
              | cons s2 r2 =>
                  have h6 := hst3.2.2 (s2 :: r2) (by simp)
                  rw [List.append_assoc, List.singleton_append] at h6
                  rw [h6]
                  simp only [encLU]
                  rw [branchVals_append, branchVals_single_self hct]
            · have hbneq : Seg.unionData b ≠ Seg.unionData tag := by simpa using hb
              have hnd2 : nm ++ Seg.unionData b :: rest ≠ nm ++ [Seg.unionData tag] := by
                intro h
                exact absurd (append_cons_eq_iff.1 h).1 hbneq
              rw [(hfr3.2 _ (not_underP_of_not_under (not_under1_head hbneq))).2,
                withLU_lastUnion_ne _ _ _ hnd2, fillCol_lastUnion, fillCol_lastUnion,
                hst.2.2 (Seg.unionData b :: rest) (by simp)]
              cases rest with
              | nil =>
                  simp only [encLU]
                  rw [branchVals_append, branchVals_single_other hct hb, List.append_nil]
              | cons s2 r2 =>
                  simp only [encLU]
                  rw [branchVals_append, branchVals_single_other hct hb, List.append_nil]
        | unionTag =>
            rw [(hfr3.2 _ (not_underP_of_not_under (not_under1_head (by simp)))).2,
              withLU_lastUnion_ne _ _ _ (fun h => absurd (append_cons_eq_iff.1 h).1 (by simp)),
              fillCol_lastUnion, fillCol_lastUnion, hst.2.2 (Seg.unionTag :: rest) (by simp)]
            simp [encLU]
        | unionOffset =>
            rw [(hfr3.2 _ (not_underP_of_not_under (not_under1_head (by simp)))).2,
              withLU_lastUnion_ne _ _ _ (fun h => absurd (append_cons_eq_iff.1 h).1 (by simp)),
              fillCol_lastUnion, fillCol_lastUnion, hst.2.2 (Seg.unionOffset :: rest) (by simp)]
            simp [encLU]
        | listOffset =>
            rw [(hfr3.2 _ (not_underP_of_not_under (not_under1_head (by simp)))).2,
              withLU_lastUnion_ne _ _ _ (fun h => absurd (append_cons_eq_iff.1 h).1 (by simp)),
              fillCol_lastUnion, fillCol_lastUnion, hst.2.2 (Seg.listOffset :: rest) (by simp)]
            simp [encLU]
        | listData =>
            rw [(hfr3.2 _ (not_underP_of_not_under (not_under1_head (by simp)))).2,
              withLU_lastUnion_ne _ _ _ (fun h => absurd (append_cons_eq_iff.1 h).1 (by simp)),
              fillCol_lastUnion, fillCol_lastUnion, hst.2.2 (Seg.listData :: rest) (by simp)]
            simp [encLU]
        | recField f =>
            rw [(hfr3.2 _ (not_underP_of_not_under (not_under1_head (by simp)))).2,
              withLU_lastUnion_ne _ _ _ (fun h => absurd (append_cons_eq_iff.1 h).1 (by simp)),
              fillCol_lastUnion, fillCol_lastUnion, hst.2.2 (Seg.recField f :: rest) (by simp)]
            simp [encLU]
  · refine frame_trans ?_ (frame_ext hfr3)
    refine ⟨fun n2 hn2 => ?_, fun n2 hn2 => ?_⟩
    · rw [withLU_cols,
        fillCol_cols_ne _ _ _ (fun he => hn2 ⟨[Seg.unionOffset], he⟩),
        fillCol_cols_ne _ _ _ (fun he => hn2 ⟨[Seg.unionTag], he⟩)]
    · refine ⟨by rw [withLU_lastList, fillCol_lastList, fillCol_lastList], ?_⟩
      rw [withLU_lastUnion_ne _ _ _ (fun he => hn2 ⟨[Seg.unionData tag], by simp, he⟩),
        fillCol_lastUnion, fillCol_lastUnion]

/-! ### `recurse` on a record -/

theorem opfill_record_case (k : Nat) (ihFl : PFields k) (v : Value)
    (tfs : List (String × PType)) (nm : AName) (st : FillState) (vs : List Value)
    (hk : sizeOf v + sizeOf (PType.record tfs) < k + 1)
    (hc : canon v (.record tfs) = true) (hwf : wf (.record tfs) = true)
    (hst : StOK (.record tfs) vs nm st) :
    ∃ st2, recurse v (.record tfs) nm st = .ok st2
      ∧ StOK (.record tfs) (vs ++ [v]) nm st2 ∧ Frame nm st st2 := by
  have hnd : nodupKeys (tfs.map Prod.fst) = true ∧ wfFields tfs = true := by
    simpa [wf, Bool.and_eq_true] using hwf
  have hk2 : sizeOf tfs + sizeOf v < k := by
    simp only [PType.record.sizeOf_spec] at hk
    omega
  have hprops : ∀ p ∈ tfs, wf p.2 = true ∧ canon (getFieldD p.1 v) p.2 = true
      ∧ (fieldsOf v).lookup p.1 = some (getFieldD p.1 v) := by
    intro p hp
    have hlk := nodupKeys_lookup hnd.1 p hp
    obtain ⟨h1, h2⟩ := canon_field hc hlk
    exact ⟨wfFields_mem hnd.2 p hp, h2, h1⟩
  have hpre : ∀ p ∈ tfs, StOK p.2 (vs.map (getFieldD p.1)) (nm ++ [Seg.recField p.1]) st := by
    intro p hp
    have hlk := nodupKeys_lookup hnd.1 p hp
    refine ⟨fun rel => ?_, fun rel _ => ?_, fun rel _ => ?_⟩
    · have h1 := hst.1 (Seg.recField p.1 :: rel)
      simp only [encCols] at h1
      rw [hlk] at h1
      rw [List.append_assoc, List.singleton_append]
      exact h1
    · have h1 := hst.2.1 (Seg.recField p.1 :: rel) (by simp)
      simp only [encLL] at h1
      rw [hlk] at h1
      rw [List.append_assoc, List.singleton_append]
      exact h1
    · have h1 := hst.2.2 (Seg.recField p.1 :: rel) (by simp)
      simp only [encLU] at h1
      rw [hlk] at h1
      rw [List.append_assoc, List.singleton_append]
      exact h1
  obtain ⟨st2, hrun, hpost, hcun, hcpn⟩ := ihFl tfs v nm st vs hk2 hprops hnd.1 hpre
  have hnuOther : ∀ (s : Seg) (rest : List Seg), (∀ f2 : String, s ≠ Seg.recField f2) →
      ∀ p ∈ tfs, ¬ Under (nm ++ [Seg.recField p.1]) (nm ++ s :: rest) := by
    intro s rest hs p _
    exact not_under1_head (fun he => hs p.1 he)
  have hnuNone : ∀ (f : String) (rest : List Seg), tfs.lookup f = none →
      ∀ p ∈ tfs, ¬ Under (nm ++ [Seg.recField p.1]) (nm ++ Seg.recField f :: rest) := by
    intro f rest hlf p hp
    refine not_under1_head (fun he => ?_)
    have hf : f = p.1 := by simpa using he
    rw [hf, nodupKeys_lookup hnd.1 p hp] at hlf
    cases hlf
  refine ⟨st2, by simpa only [recurse] using hrun,
    ⟨fun rel => ?_, fun rel hne => ?_, fun rel hne => ?_⟩, ?_⟩
  · cases rel with
    | nil =>
        rw [List.append_nil, hcun nm (fun p _ => not_under1_nm)]
        have h1 := hst.1 []
        rw [List.append_nil] at h1
        rw [h1]
        simp [encCols]
    | cons s rest =>
        cases s with
        | recField f =>
            cases hlf : tfs.lookup f with
            | none =>
                rw [hcun _ (hnuNone f rest hlf), hst.1 (Seg.recField f :: rest)]
                simp only [encCols]
                rw [hlf]
            | some ft =>
                have hmem := lookup_mem_str hlf
                have h5 := (hpost (f, ft) hmem).1 rest
                rw [List.append_assoc, List.singleton_append] at h5
                simp only [encCols]
                rw [hlf]
                exact h5
        | listOffset =>
            rw [hcun _ (hnuOther _ rest (by simp) ), hst.1 (Seg.listOffset :: rest)]
            simp [encCols]
        | listData =>
            rw [hcun _ (hnuOther _ rest (by simp)), hst.1 (Seg.listData :: rest)]
            simp [encCols]
        | unionTag =>
            rw [hcun _ (hnuOther _ rest (by simp)), hst.1 (Seg.unionTag :: rest)]
            simp [encCols]
        | unionOffset =>
            rw [hcun _ (hnuOther _ rest (by simp)), hst.1 (Seg.unionOffset :: rest)]
            simp [encCols]
        | unionData b =>
            rw [hcun _ (hnuOther _ rest (by simp)), hst.1 (Seg.unionData b :: rest)]
            simp [encCols]
  · cases rel with
    | nil => exact absurd rfl hne
    | cons s rest =>
        cases s with
        | recField f =>
            cases hlf : tfs.lookup f with
            | none =>
                rw [(hcpn _ (fun p hp =>
                    not_underP_of_not_under (hnuNone f rest hlf p hp))).1,
                  hst.2.1 (Seg.recField f :: rest) (by simp)]
                simp only [encLL]
                rw [hlf]
            | some ft =>
                have hmem := lookup_mem_str hlf
                cases rest with
                | nil =>
                    have hnUP : ∀ p ∈ tfs,
                        ¬ UnderP (nm ++ [Seg.recField p.1]) (nm ++ [Seg.recField f]) := by
                      intro p hp
                      by_cases hpf : p.1 = f
                      · rw [hpf]
                        exact not_underP1_self
                      · refine not_underP_of_not_under (not_under1_head ?_)
                        intro he
                        exact hpf (by simpa using he.symm)
                    rw [(hcpn _ hnUP).1, hst.2.1 [Seg.recField f] (by simp)]
                    simp [encLL, hlf, encLL_nil]
                | cons s2 r2 =>
                    have h5 := (hpost (f, ft) hmem).2.1 (s2 :: r2) (by simp)
                    rw [List.append_assoc, List.singleton_append] at h5
                    simp only [encLL]
                    rw [hlf]
                    exact h5
        | listOffset =>
            rw [(hcpn _ (fun p hp =>
                not_underP_of_not_under (hnuOther _ rest (by simp) p hp))).1,
              hst.2.1 (Seg.listOffset :: rest) (by simp)]
            simp [encLL]
        | listData =>
            rw [(hcpn _ (fun p hp =>
                not_underP_of_not_under (hnuOther _ rest (by simp) p hp))).1,
              hst.2.1 (Seg.listData :: rest) (by simp)]
            simp [encLL]
        | unionTag =>
            rw [(hcpn _ (fun p hp =>
                not_underP_of_not_under (hnuOther _ rest (by simp) p hp))).1,
              hst.2.1 (Seg.unionTag :: rest) (by simp)]
            simp [encLL]
        | unionOffset =>
            rw [(hcpn _ (fun p hp =>
                not_underP_of_not_under (hnuOther _ rest (by simp) p hp))).1,
              hst.2.1 (Seg.unionOffset :: rest) (by simp)]
            simp [encLL]
        | unionData b =>
            rw [(hcpn _ (fun p hp =>
                not_underP_of_not_under (hnuOther _ rest (by simp) p hp))).1,
              hst.2.1 (Seg.unionData b :: rest) (by simp)]
            simp [encLL]
  · cases rel with
    | nil => exact absurd rfl hne
    | cons s rest =>
        cases s with
        | recField f =>
            cases hlf : tfs.lookup f with
            | none =>
                rw [(hcpn _ (fun p hp =>
                    not_underP_of_not_under (hnuNone f rest hlf p hp))).2,
                  hst.2.2 (Seg.recField f :: rest) (by simp)]
                simp only [encLU]
                rw [hlf]
            | some ft =>
                have hmem := lookup_mem_str hlf
                cases rest with
                | nil =>
                    have hnUP : ∀ p ∈ tfs,
                        ¬ UnderP (nm ++ [Seg.recField p.1]) (nm ++ [Seg.recField f]) := by
                      intro p hp
                      by_cases hpf : p.1 = f
                      · rw [hpf]
                        exact not_underP1_self
                      · refine not_underP_of_not_under (not_under1_head ?_)
                        intro he
                        exact hpf (by simpa using he.symm)
                    rw [(hcpn _ hnUP).2, hst.2.2 [Seg.recField f] (by simp)]
                    simp [encLU, hlf, encLU_nil]
                | cons s2 r2 =>
                    have h5 := (hpost (f, ft) hmem).2.2 (s2 :: r2) (by simp)
                    rw [List.append_assoc, List.singleton_append] at h5
                    simp only [encLU]
                    rw [hlf]
                    exact h5
        | listOffset =>
            rw [(hcpn _ (fun p hp =>
                not_underP_of_not_under (hnuOther _ rest (by simp) p hp))).2,
              hst.2.2 (Seg.listOffset :: rest) (by simp)]
            simp [encLU]
        | listData =>
            rw [(hcpn _ (fun p hp =>
                not_underP_of_not_under (hnuOther _ rest (by simp) p hp))).2,
              hst.2.2 (Seg.listData :: rest) (by simp)]
            simp [encLU]
        | unionTag =>
            rw [(hcpn _ (fun p hp =>
                not_underP_of_not_under (hnuOther _ rest (by simp) p hp))).2,
              hst.2.2 (Seg.unionTag :: rest) (by simp)]
            simp [encLU]
        | unionOffset =>
            rw [(hcpn _ (fun p hp =>
                not_underP_of_not_under (hnuOther _ rest (by simp) p hp))).2,
              hst.2.2 (Seg.unionOffset :: rest) (by simp)]
            simp [encLU]
        | unionData b =>
            rw [(hcpn _ (fun p hp =>
                not_underP_of_not_under (hnuOther _ rest (by simp) p hp))).2,
              hst.2.2 (Seg.unionData b :: rest) (by simp)]
            simp [encLU]
  · refine ⟨fun n2 hn2 => ?_, fun n2 hn2 => ?_⟩
    · refine hcun n2 (fun p _ hu => hn2 ?_)
      rcases under1_iff.1 hu with ⟨r, hr⟩
      exact ⟨Seg.recField p.1 :: r, hr⟩
    · refine hcpn n2 (fun p _ hu => hn2 ?_)
      rcases underP1_iff.1 hu with ⟨r, _, hr⟩
      exact ⟨Seg.recField p.1 :: r, by simp, hr⟩

/-! ### The loops, and the joint operational induction -/

theorem opfill_items_step (k : Nat) (ihF : PFill k) (ihI : PItems k) : PItems (k + 1) := by
  intro xs of nm st fl hk hcx hwo hst
  cases xs with
  | nil =>
      refine ⟨st, by simp [recurseItems], ?_, frame_refl nm st⟩
      rw [List.append_nil]
      exact hst
  | cons x xs2 =>
      have hk1 : sizeOf x + sizeOf of < k := by
        simp only [List.cons.sizeOf_spec] at hk
        omega
      obtain ⟨st1, hr1, hst1, hfr1⟩ := ihF x of nm st fl hk1 (hcx x (by simp)) hwo hst
      have hk2 : sizeOf xs2 + sizeOf of < k := by
        simp only [List.cons.sizeOf_spec] at hk
        omega
      obtain ⟨st2, hr2, hst2, hfr2⟩ := ihI xs2 of nm st1 (fl ++ [x]) hk2
        (fun y hy => hcx y (by simp [hy])) hwo hst1
      refine ⟨st2, ?_, ?_, frame_trans hfr1 hfr2⟩
      · simp only [recurseItems, hr1]
        exact hr2
      · have he : fl ++ x :: xs2 = (fl ++ [x]) ++ xs2 := by simp
        rw [he]
        exact hst2

theorem opfill_fields_step (k : Nat) (ihF : PFill k) (ihFl : PFields k) : PFields (k + 1) := by
  intro ts v nm st vs hk hprops hnd hpre
  cases ts with
  | nil =>
      refine ⟨st, by simp [recurseFields], ?_, fun n _ => rfl, fun n _ => ⟨rfl, rfl⟩⟩
      intro p hp
      simp at hp
  | cons q ts2 =>
      rcases q with ⟨f, ft⟩
      have hwft : wf ft = true := (hprops (f, ft) (by simp)).1
      have hcf : canon (getFieldD f v) ft = true := (hprops (f, ft) (by simp)).2.1
      have hlf : (fieldsOf v).lookup f = some (getFieldD f v) := (hprops (f, ft) (by simp)).2.2
      rw [List.map_cons, nodupKeys, Bool.and_eq_true] at hnd
      have hfnotin : ∀ p ∈ ts2, p.1 ≠ f := by
        intro p hp he
        have hmem : f ∈ ts2.map Prod.fst := by
          rw [← he]
          exact List.mem_map.2 ⟨p, hp, rfl⟩
        simp [hmem] at hnd
      have hk1 : sizeOf (getFieldD f v) + sizeOf ft < k := by
        have h1 : sizeOf (getFieldD f v) < sizeOf v := by
          have h2 := sizeOf_lookup_lt hlf
          have h3 := sizeOf_fieldsOf_le v
          omega
        simp only [List.cons.sizeOf_spec, Prod.mk.sizeOf_spec] at hk
        omega
      obtain ⟨st1, hr1, hst1, hfr1⟩ := ihF (getFieldD f v) ft (nm ++ [Seg.recField f]) st
        (vs.map (getFieldD f)) hk1 hcf hwft (hpre (f, ft) (by simp))
      have hk2 : sizeOf ts2 + sizeOf v < k := by
        simp only [List.cons.sizeOf_spec, Prod.mk.sizeOf_spec] at hk
        omega
      have hpre2 : ∀ p ∈ ts2, StOK p.2 (vs.map (getFieldD p.1))
          (nm ++ [Seg.recField p.1]) st1 := by
        intro p hp
        have hnu : ∀ rel : List Seg,
            ¬ Under (nm ++ [Seg.recField f]) ((nm ++ [Seg.recField p.1]) ++ rel) := by
          intro rel
          rw [List.append_assoc, List.singleton_append]
          exact not_under1_head (by simpa using hfnotin p hp)
        have hsub := hpre p (by simp [hp])
        refine ⟨fun rel => ?_, fun rel hne => ?_, fun rel hne => ?_⟩
        · rw [hfr1.1 _ (hnu rel)]
          exact hsub.1 rel
        · rw [(hfr1.2 _ (not_underP_of_not_under (hnu rel))).1]
          exact hsub.2.1 rel hne
        · rw [(hfr1.2 _ (not_underP_of_not_under (hnu rel))).2]
          exact hsub.2.2 rel hne
      obtain ⟨st2, hr2, hpost2, hcu2, hcp2⟩ := ihFl ts2 v nm st1 vs hk2
        (fun p hp => hprops p (by simp [hp])) hnd.2 hpre2
      have hnu2 : ∀ (rel : List Seg) (p : String × PType), p ∈ ts2 →
          ¬ Under (nm ++ [Seg.recField p.1]) ((nm ++ [Seg.recField f]) ++ rel) := by
        intro rel p hp
        rw [List.append_assoc, List.singleton_append]
        exact not_under1_head (fun he => hfnotin p hp (by simpa using he.symm))
      refine ⟨st2, ?_, ?_, ?_, ?_⟩
      · simp only [recurseFields]
        split
        · next heq =>
            rw [hlf] at heq
            simp at heq
        · next x heq =>
            rw [hlf] at heq
            have hx := Option.some.inj heq
            subst hx
            rw [hr1]
            exact hr2
      · intro p hp
        rcases List.mem_cons.1 hp with hp1 | hp2
        · subst hp1
          refine ⟨fun rel => ?_, fun rel hne => ?_, fun rel hne => ?_⟩
          · rw [hcu2 _ (fun p2 hp2 => hnu2 rel p2 hp2), hst1.1 rel, map_append_one]
          · rw [(hcp2 _ (fun p2 hp2 =>
                not_underP_of_not_under (hnu2 rel p2 hp2))).1, hst1.2.1 rel hne,
              map_append_one]
          · rw [(hcp2 _ (fun p2 hp2 =>
                not_underP_of_not_under (hnu2 rel p2 hp2))).2, hst1.2.2 rel hne,
              map_append_one]
        · exact hpost2 p hp2
      · intro n hn
        rw [hcu2 n (fun p hp => hn p (by simp [hp])), hfr1.1 n (hn (f, ft) (by simp))]
      · intro n hn
        have h1 := hcp2 n (fun p hp => hn p (by simp [hp]))
        have h2 := hfr1.2 n (hn (f, ft) (by simp))
        exact ⟨by rw [h1.1, h2.1], by rw [h1.2, h2.2]⟩

theorem opfill_main : ∀ k : Nat, PFill k ∧ PItems k ∧ PFields k := by
  intro k
  induction k with
  | zero =>
      refine ⟨fun v T nm st vs hk => absurd hk (by omega),
        fun xs of nm st fl hk => absurd hk (by omega),
        fun ts v nm st vs hk => absurd hk (by omega)⟩
  | succ k ih =>
      obtain ⟨ihF, ihI, ihFl⟩ := ih
      refine ⟨?_, opfill_items_step k ihF ihI, opfill_fields_step k ihF ihFl⟩
      intro v T nm st vs hk hc hwf hst
      cases T with
      | int => exact opfill_prim v nm st vs hc hst
      | list of =>
          cases v with
          | list xs => exact opfill_list_case k ihI xs of nm st vs hk hc hwf hst
          | prim n => simp [canon] at hc
          | record fs => simp [canon] at hc
      | union of => exact opfill_union_case k ihF v of nm st vs hk hc hwf hst
      | record tfs => exact opfill_record_case k ihFl v tfs nm st vs hk hc hwf hst
      | tup of => simp [wf] at hwf

/-! ### The empty encodings, and the round trip -/

theorem encCols_empty : ∀ (rel : List Seg) (T : PType), encCols T [] rel = []
  | [], T => by cases T <;> simp [encCols]
  | s :: rest, T => by
      cases T with
      | int => cases s <;> simp [encCols]
      | list of =>
          cases s with
          | listOffset => cases rest <;> simp [encCols, Arrowed.cumsum]
          | listData =>
              simp only [encCols, List.flatMap_nil]
              exact encCols_empty rest of
          | unionTag => simp [encCols]
          | unionOffset => simp [encCols]
          | unionData b => simp [encCols]
          | recField f => simp [encCols]
      | union of =>
          cases s with
          | unionTag => cases rest <;> simp [encCols, tagsOf]
          | unionOffset => cases rest <;> simp [encCols, uoffsOf]
          | unionData b =>
              simp only [encCols]
              have hbv : branchVals of b [] = [] := by simp [branchVals]
              rw [hbv]
              exact encCols_empty rest (of.getD b .int)
          | listOffset => simp [encCols]
          | listData => simp [encCols]
          | recField f => simp [encCols]
      | record tfs =>
          cases s with
          | recField f =>
              simp only [encCols]
              cases hlf : tfs.lookup f with
              | none => rfl
              | some ft => exact encCols_empty rest ft
          | listOffset => simp [encCols]
          | listData => simp [encCols]
          | unionTag => simp [encCols]
          | unionOffset => simp [encCols]
          | unionData b => simp [encCols]
      | tup of => cases s <;> simp [encCols]

theorem encLL_empty : ∀ (rel : List Seg) (T : PType), encLL T [] rel = 0
  | [], T => encLL_nil T []
  | s :: rest, T => by
      cases T with
      | int => cases s <;> simp [encLL]
      | list of =>
          cases s with
          | listOffset => cases rest <;> simp [encLL, sumLens]
          | listData =>
              simp only [encLL, List.flatMap_nil]
              exact encLL_empty rest of
          | unionTag => simp [encLL]
          | unionOffset => simp [encLL]
          | unionData b => simp [encLL]
          | recField f => simp [encLL]
      | union of =>
          cases s with
          | unionData b =>
              simp only [encLL]
              have hbv : branchVals of b [] = [] := by simp [branchVals]
              rw [hbv]
              exact encLL_empty rest (of.getD b .int)
          | listOffset => simp [encLL]
          | listData => simp [encLL]
          | unionTag => simp [encLL]
          | unionOffset => simp [encLL]
          | recField f => simp [encLL]
      | record tfs =>
          cases s with
          | recField f =>
              simp only [encLL]
              cases hlf : tfs.lookup f with
              | none => rfl
              | some ft => exact encLL_empty rest ft
          | listOffset => simp [encLL]
          | listData => simp [encLL]
          | unionTag => simp [encLL]
          | unionOffset => simp [encLL]
          | unionData b => simp [encLL]
      | tup of => cases s <;> simp [encLL]

theorem encLU_empty : ∀ (rel : List Seg) (T : PType), encLU T [] rel = 0
  | [], T => encLU_nil T []
  | s :: rest, T => by
      cases T with
      | int => cases s <;> simp [encLU]
      | list of =>
          cases s with
          | listData =>
              simp only [encLU, List.flatMap_nil]
              exact encLU_empty rest of
          | listOffset => cases rest <;> simp [encLU]
          | unionTag => simp [encLU]
          | unionOffset => simp [encLU]
          | unionData b => simp [encLU]
          | recField f => simp [encLU]
      | union of =>
          cases s with
          | unionData b =>
              have hbv : branchVals of b [] = [] := by simp [branchVals]
              cases rest with
              | nil => simp [encLU, hbv]
              | cons s2 r2 =>
                  simp only [encLU]
                  rw [hbv]
                  exact encLU_empty (s2 :: r2) (of.getD b .int)
          | listOffset => simp [encLU]
          | listData => simp [encLU]
          | unionTag => simp [encLU]
          | unionOffset => simp [encLU]
          | recField f => simp [encLU]
      | record tfs =>
          cases s with
          | recField f =>
              simp only [encLU]
              cases hlf : tfs.lookup f with
              | none => rfl
              | some ft => exact encLU_empty rest ft
          | listOffset => simp [encLU]
          | listData => simp [encLU]
          | unionTag => simp [encLU]
          | unionOffset => simp [encLU]
          | unionData b => simp [encLU]
      | tup of => cases s <;> simp [encLU]

theorem initState_StOK (T : PType) : StOK T [] [] initState := by
  refine ⟨fun rel => ?_, fun rel _ => ?_, fun rel _ => ?_⟩
  · exact (encCols_empty rel T).symm
  · exact (encLL_empty rel T).symm
  · exact (encLU_empty rel T).symm

/-- **C1** — Round trip: for every nested value `v` canonically conforming to a
well-formed plur schema `T` (no tuples, no duplicate record field names),
`toarrays` succeeds, and resolving the arrowed template of `T` against the
finalized columns and materializing row 0 through the proxy semantics yields
exactly `v`:  `materialize (resolve (S, flatten (S, v)), 0) = v`. -/
theorem flatten_roundtrip (T : PType) (v : Value)
    (hwf : wf T = true) (hc : canon v T = true) :
    ∃ cols, toarraysCols T v = Except.ok cols
      ∧ materialize (resolveA (arrowedOf T []) cols) 0 = some v := by
  obtain ⟨st2, hrun, hst2, _⟩ := (opfill_main (sizeOf v + sizeOf T + 1)).1 v T [] initState []
    (by omega) hc hwf (initState_StOK T)
  refine ⟨finalizeCols st2.cols, ?_, ?_⟩
  · rw [toarraysCols, hrun]
    rfl
  · have hres : resolveA (arrowedOf T []) (finalizeCols st2.cols) = rschOf T [v] := by
      refine resolve_enc_aux (sizeOf T + 1) T [v] [] st2.cols (by omega) hwf (by simp) ?_
      intro rel
      exact hst2.1 rel
    rw [hres]
    have hdec := decode_aux (sizeOf T + 1) T [v] (by omega) hwf
      (fun x hx => by rw [List.mem_singleton.1 hx]; exact hc) 0 (by simp)
    simpa using hdec

/-- Witness for `flatten_roundtrip` at spec §8 scenario 4: schema
`Record {x: int, y: List(int)}`, value `{x: 1, y: [1, 2, 3]}`. -/
theorem flatten_roundtrip_witness :
    wf (.record [("x", .int), ("y", .list .int)]) = true
    ∧ canon (.record [("x", .prim 1), ("y", .list [.prim 1, .prim 2, .prim 3])])
        (.record [("x", .int), ("y", .list .int)]) = true
    ∧ ∃ cols, toarraysCols (.record [("x", .int), ("y", .list .int)])
          (.record [("x", .prim 1), ("y", .list [.prim 1, .prim 2, .prim 3])]) = Except.ok cols
        ∧ materialize (resolveA (arrowedOf (.record [("x", .int), ("y", .list .int)]) []) cols) 0
          = some (.record [("x", .prim 1), ("y", .list [.prim 1, .prim 2, .prim 3])]) :=
  ⟨rfl,
   by simp [canon, canonItems, canonFields],
   flatten_roundtrip _ _ rfl (by simp [canon, canonItems, canonFields])⟩

/-- **C10** — the flattener handles only Primitive, List, Union and Record
schema nodes: on any node of the spec's remaining `Tuple` kind, `recurse` hits
the final `assert False, "unexpected type object"` for every input value,
whatever the current name and fill state, so tuple-shaped data cannot be
flattened at all. -/
theorem recurse_tup_unexpected (v : Value) (of : List PType) (nm : AName) (st : FillState) :
    recurse v (.tup of) nm st = .error .unexpectedType := by
  simp [recurse]

end Plur

end Spec2Proof
